import Mathlib

/-!
Verification of the segmentation-and-attribution pipeline of the
Shawny-P.github.io chat-transcript tools.

The JavaScript sources are embedded shallowly:
* JS strings are modelled as `List Char` (`JSString`);
* JS regexes are translated into structural matching functions;
* JS numbers used for confidences are modelled as `ℚ` (all reachable
  confidence values are exact two-decimal quantities, and the final
  `Math.round(c * 100) / 100` in the source makes the rational model agree
  with IEEE doubles on every reachable value);
* scores are natural numbers (all feature weights are positive).
-/

namespace BubbleScript

/-- JS strings, modelled as lists of Unicode scalar values. -/
abbrev JSString := List Char

/-- The character set matched by the JavaScript regex class `\s`
(whitespace, as also used by `String.prototype.trim`). -/
def jsIsSpace (c : Char) : Bool :=
  c = ' ' || c = '\t' || c = '\n' || c = '\r' ||
  c = Char.ofNat 11 || c = Char.ofNat 12 ||
  c = Char.ofNat 0xA0 || c = Char.ofNat 0x1680 ||
  (0x2000 ≤ c.toNat && c.toNat ≤ 0x200A) ||
  c = Char.ofNat 0x2028 || c = Char.ofNat 0x2029 || c = Char.ofNat 0x202F ||
  c = Char.ofNat 0x205F || c = Char.ofNat 0x3000 || c = Char.ofNat 0xFEFF

/-- Left half of `String.prototype.trim`. -/
def jsTrimLeft (s : JSString) : JSString := s.dropWhile jsIsSpace

/-- Right half of `String.prototype.trim`. -/
def jsTrimRight (s : JSString) : JSString := (s.reverse.dropWhile jsIsSpace).reverse

/-- `String.prototype.trim`. -/
def jsTrim (s : JSString) : JSString := jsTrimRight (jsTrimLeft s)

/-- `text.split(Char.ofNat 10)`: split on newline characters, JS semantics
(always returns at least one piece; empty pieces are kept). -/
def splitLines : JSString → List JSString
  | [] => [[]]
  | c :: rest =>
    if c = '\n' then [] :: splitLines rest
    else
      match splitLines rest with
      | [] => [[c]]
      | l :: ls => (c :: l) :: ls

/-- ASCII lower-casing of one character (model of JS `toLowerCase` on the
ASCII range, which is all the case-insensitive regexes here depend on). -/
def asciiLower (c : Char) : Char :=
  if 'A' ≤ c && c ≤ 'Z' then Char.ofNat (c.toNat + 32) else c

/-- ASCII upper-casing of one character (model of JS `toUpperCase`). -/
def asciiUpper (c : Char) : Char :=
  if 'a' ≤ c && c ≤ 'z' then Char.ofNat (c.toNat - 32) else c

/-- Lower-case a whole string. -/
def lowerStr (s : JSString) : JSString := s.map asciiLower

/-- The JS regex class `\w`: ASCII letters, digits and underscore. -/
def isWordChar (c : Char) : Bool :=
  ('a' ≤ c && c ≤ 'z') || ('A' ≤ c && c ≤ 'Z') || ('0' ≤ c && c ≤ '9') || c = '_'

/-- `s` starts with `pat` (exact characters). -/
def startsWith : JSString → JSString → Bool
  | _, [] => true
  | [], _ :: _ => false
  | c :: cs, d :: ds => c = d && startsWith cs ds

/-- `s` starts with `pat`, ASCII-case-insensitively. -/
def ciStartsWith (s pat : JSString) : Bool := startsWith (lowerStr s) (lowerStr pat)

/-- `pat` occurs somewhere in `s` (model of `String.prototype.includes`
and of an unanchored regex literal). -/
def containsSub (pat : JSString) : JSString → Bool
  | [] => startsWith [] pat
  | c :: cs => startsWith (c :: cs) pat || containsSub pat cs

/-- A regex `\b` word boundary sits between characters `a` and `b`
(`none` = edge of the string): exactly one side is a word character. -/
def wordBoundaryOk (a b : Option Char) : Bool :=
  (match a with | none => false | some c => isWordChar c) !=
  (match b with | none => false | some c => isWordChar c)

/-- `\bpat\b` matches at the very start of `s`, where `prev` is the
character immediately before `s` in the full subject string. -/
def boundedHere (pat s : JSString) (prev : Option Char) : Bool :=
  startsWith s pat &&
  wordBoundaryOk prev s.head? &&
  wordBoundaryOk ((s.take pat.length).getLast?) ((s.drop pat.length).head?)

/-- `\bpat\b` matches somewhere in `s` (with `prev` the character before
the current suffix). -/
def boundedOccurs (pat : JSString) : JSString → Option Char → Bool
  | [], prev => boundedHere pat [] prev
  | c :: cs, prev => boundedHere pat (c :: cs) prev || boundedOccurs pat cs (some c)

/-- Test of a case-insensitive alternation `/\b(p1|p2|…)\b/i` against `t`
(the patterns are given lower-case). -/
def wordTest (pats : List JSString) (t : JSString) : Bool :=
  pats.any (fun p => boundedOccurs p (lowerStr t) none)

/-- Test of an anchored `/^(p1|p2|…)\b/i` against `t`. -/
def anchoredWordTest (pats : List JSString) (t : JSString) : Bool :=
  pats.any (fun p => boundedHere p (lowerStr t) none)

/-! ### Parser module (`app.js`, `Parser`) -/

/-- Segment kind: `user` is the primary (human) party, `ai` the counterpart,
`unknown` an unattributed segment. -/
inductive SegType where
  | user
  | ai
  | unknown
deriving DecidableEq, Repr

/-- One chat segment as built by `Parser` in `app.js`. The JS objects have
fields `type`, `speaker`, `content` and (sometimes) `originalPrefix`; an
absent `originalPrefix` behaves exactly like the empty string everywhere it
is read (`||` and truthiness), so it is modelled as `opfx : JSString`
defaulting to `[]`. -/
structure Segment where
  type : SegType
  speaker : JSString
  content : JSString
  opfx : JSString := []
deriving DecidableEq, Repr

/-- `CONFIG.USER_KEYWORDS` from `app.js`. -/
def userKeywordsL : List JSString :=
  [("user".data), ("you".data), ("me".data), ("human".data), ("prompter".data)]

/-- `CONFIG.AI_KEYWORDS` from `app.js`. -/
def aiKeywordsL : List JSString :=
  [("ai".data), ("chatgpt".data), ("claude".data), ("gemini".data), ("grok".data),
   ("llama".data), ("copilot".data), ("assistant".data), ("model".data), ("bot".data)]

/-- The alternation `USER_KEYWORDS ++ AI_KEYWORDS` in source order, as used
to build `keywordSpeakerRegex`. -/
def allKeywordsL : List JSString := userKeywordsL ++ aiKeywordsL

/-- `permissiveSpeakerRegex = /^([^:\n]{1,100}):\s+/` matched against a line.
Returns `(match0, group1)` on success.  The character class excludes colons,
so the group can only end at the first colon of the line; the fixed width
bound 1–100 makes any line whose first colon sits beyond index 100 fail. -/
def permissiveMatch (line : JSString) : Option (JSString × JSString) :=
  let pre := line.takeWhile (fun c => !(c = ':') && !(c = '\n'))
  match line.drop pre.length with
  | c :: rest2 =>
    if c = ':' ∧ 1 ≤ pre.length ∧ pre.length ≤ 100 ∧ 1 ≤ (rest2.takeWhile jsIsSpace).length then
      some (pre ++ ':' :: rest2.takeWhile jsIsSpace, pre)
    else none
  | [] => none

/-- First keyword of the regex alternation that case-insensitively prefixes
`s`; returns the matched text (original case). -/
def findKw (s : JSString) : Option JSString :=
  allKeywordsL.findSome? (fun kw => if ciStartsWith s kw then some (s.take kw.length) else none)

/-- The optional tail `(\*\*|:|\s+said)?` of `keywordSpeakerRegex`, in
alternation order; returns the matched text (possibly empty). -/
def kwSuffix (s : JSString) : JSString :=
  if startsWith s ('*' :: '*' :: []) then ('*' :: '*' :: [])
  else if startsWith s (':' :: []) then (':' :: [])
  else
    let ws := s.takeWhile jsIsSpace
    if 1 ≤ ws.length && ciStartsWith (s.drop ws.length) ("said".data) then
      ws ++ (s.drop ws.length).take 4
    else []

/-- One attempt of `keywordSpeakerRegex` after a fixed marker (group 1):
`(\s*)(keyword)(\*\*|:|\s+said)?`.  Returns `(match0, group3)`. -/
def kwAttempt (mk rest : JSString) : Option (JSString × JSString) :=
  let ws := rest.takeWhile jsIsSpace
  let rest2 := rest.drop ws.length
  match findKw rest2 with
  | some kwText => some (mk ++ ws ++ kwText ++ kwSuffix (rest2.drop kwText.length), kwText)
  | none => none

/-- `keywordSpeakerRegex = /^(\*\*|##\s|)?(\s*)(user|you|…|bot)(\*\*|:|\s+said)?/i`
matched against a line.  The marker alternatives are tried in order; if the
non-empty marker matches but no keyword follows, the regex backtracks to the
empty marker (keywords start with letters, so that retry can only succeed
when the line did not actually start with the marker text). -/
def keywordMatch (line : JSString) : Option (JSString × JSString) :=
  if startsWith line ('*' :: '*' :: []) then
    match kwAttempt ('*' :: '*' :: []) (line.drop 2) with
    | some r => some r
    | none => kwAttempt [] line
  else
    match line with
    | '#' :: '#' :: c :: r =>
      if jsIsSpace c then
        match kwAttempt ('#' :: '#' :: c :: []) r with
        | some x => some x
        | none => kwAttempt [] line
      else kwAttempt [] line
    | _ => kwAttempt [] line

/-- `userKeywordRegex.test` from `app.js`: `/\b(user|you|me|human|prompter)\b/i`. -/
def userKeywordTest (s : JSString) : Bool := wordTest userKeywordsL s

/-- `aiKeywordRegex.test` from `app.js` (computed but unused by the
decision in `parseByLabels`). -/
def aiKeywordTest (s : JSString) : Bool := wordTest aiKeywordsL s

/-- `charAt(0).toUpperCase() + slice(1)`. -/
def capitalizeName (s : JSString) : JSString :=
  match s with
  | [] => []
  | c :: cs => asciiUpper c :: cs

/-- The per-line label decision of `parseByLabels`: `none` means the line is
appended to the current segment's content; `some (type, speaker, match0)`
means a new segment starts.  A permissive match whose group trims to the
empty string sets `speakerName` to a falsy value and the line falls through
to content accumulation without trying the keyword regex (JS lines 525–563). -/
def lineLabel (line : JSString) : Option (SegType × JSString × JSString) :=
  match permissiveMatch line with
  | some (m0, name) =>
    let nameT := jsTrim name
    if nameT = [] then none
    else
      some ((if userKeywordTest (lowerStr nameT) then SegType.user else SegType.ai),
            capitalizeName nameT, m0)
  | none =>
    match keywordMatch line with
    | some (m0, kwText) =>
      some ((if userKeywordsL.contains (lowerStr kwText) then SegType.user else SegType.ai),
            capitalizeName kwText, m0)
    | none => none

/-- State of the `parseByLabels` line loop. -/
structure LabelState where
  cur : Segment
  segs : List Segment
deriving DecidableEq, Repr

/-- The initial accumulating segment of `parseByLabels`. -/
def initSeg : Segment :=
  { type := SegType.unknown, speaker := ("Unknown".data), content := [], opfx := [] }

/-- Flush the current segment (if its content is not whitespace-only) and
start a new one from a matched label. -/
def pushSeg (st : LabelState) (ty : SegType) (spk clean m0 : JSString) : LabelState :=
  let segs := if jsTrim st.cur.content = [] then st.segs else st.segs ++ [st.cur]
  { cur := { type := ty, speaker := spk, content := clean ++ ['\n'], opfx := m0 }, segs := segs }

/-- One iteration of the `lines.forEach` loop in `parseByLabels`. -/
def labelStep (st : LabelState) (line : JSString) : LabelState :=
  match lineLabel line with
  | some (ty, spk, m0) => pushSeg st ty spk (jsTrim (line.drop m0.length)) m0
  | none => { st with cur := { st.cur with content := st.cur.content ++ line ++ ['\n'] } }

/-- The first-segment inference post-pass of `parseByLabels` (JS lines
573–582): an unknown leading segment takes the kind opposite to the second
segment. -/
def inferFirstSeg : List Segment → List Segment
  | s0 :: s1 :: rest =>
    if s0.type = SegType.unknown then
      if s1.type = SegType.ai then
        ({ s0 with type := SegType.user, speaker := ("User".data) }) :: s1 :: rest
      else if s1.type = SegType.user then
        ({ s0 with type := SegType.ai, speaker := ("Assistant".data) }) :: s1 :: rest
      else s0 :: s1 :: rest
    else s0 :: s1 :: rest
  | l => l

/-- `Parser.parseByLabels` from `app.js`. -/
def parseByLabels (text : JSString) : List Segment :=
  let st := (splitLines text).foldl labelStep { cur := initSeg, segs := [] }
  let segs := if jsTrim st.cur.content = [] then st.segs else st.segs ++ [st.cur]
  inferFirstSeg segs

/-- A line is blank when it consists of whitespace only. -/
def isBlankLine (l : JSString) : Bool := l.all jsIsSpace

/-- Join a run of lines with single newlines (the inverse of `splitLines`
on newline-free lines). -/
def lineJoin (run : List JSString) : JSString := (run.intersperse ['\n']).flatten

/-- Group a list of lines into maximal runs of non-blank lines. -/
def gbAux (cur : List JSString) : List JSString → List (List JSString)
  | [] => if cur = [] then [] else [cur.reverse]
  | l :: rest =>
    if isBlankLine l then
      if cur = [] then gbAux [] rest else cur.reverse :: gbAux [] rest
    else gbAux (l :: cur) rest

/-- Runs of non-blank lines. -/
def groupBlocks (ls : List JSString) : List (List JSString) := gbAux [] ls

/-- `text.trim().split(/\n\s*\n+/)`: the separator regex consumes, inside a
maximal whitespace run containing at least two newlines, everything from its
first to its last newline; after the initial `trim` this is exactly
splitting the line list at whitespace-only lines.  Each block keeps its
interior lines verbatim (non-newline whitespace at block edges stays with
the block and is removed later by the per-block `trim`). -/
def splitBlocksRaw (text : JSString) : List JSString :=
  (groupBlocks (splitLines (jsTrim text))).map lineJoin

/-- One iteration of the `blocks.forEach` loop of `parseByAlternatingTurns`:
the boolean is `isUserTurn`, toggled only when a non-empty block is pushed. -/
def altStep (st : Bool × List Segment) (block : JSString) : Bool × List Segment :=
  let content := jsTrim block
  if content = [] then st
  else
    (!st.1,
     st.2 ++ [{ type := if st.1 then SegType.user else SegType.ai,
                speaker := if st.1 then ("User".data) else ("Assistant".data),
                content := content }])

/-- `Parser.parseByAlternatingTurns` from `app.js`. -/
def parseByAlternatingTurns (text : JSString) : List Segment :=
  let blocks := splitBlocksRaw text
  if blocks.length < 2 then []
  else (blocks.foldl altStep (true, [])).2

/-- `Parser.parseByHeuristicSplit` from `app.js`. -/
def parseByHeuristicSplit (text : JSString) : List Segment :=
  let blocks := splitBlocksRaw text
  if blocks.length < 2 then []
  else
    (blocks.mapIdx (fun i block =>
      { type := if i % 2 = 0 then SegType.user else SegType.ai,
        speaker := if i % 2 = 0 then ("User".data) else ("Assistant".data),
        content := jsTrim block : Segment })).filter (fun seg => !(seg.content = []))

/-- `Parser.parseSegments` from `app.js`: the strategy cascade plus the
final empty-content filter. -/
def parseSegments (text : JSString) : List Segment :=
  let segments := parseByLabels text
  let hasKnownLabels := segments.any (fun s => s.type = SegType.user || s.type = SegType.ai)
  let segments2 :=
    if segments.length < 2 ∨ hasKnownLabels = false then
      let alternateSegments := parseByAlternatingTurns text
      if alternateSegments.length > 1 then alternateSegments else segments
    else segments
  let segments3 :=
    if segments2.length < 2 then
      let heuristicSegments := parseByHeuristicSplit text
      if heuristicSegments.length > 1 then heuristicSegments else segments2
    else segments2
  segments3.filter (fun seg => !(jsTrim seg.content = []))

/-- The reconstruction performed by `deleteSelectedBubbles` in `app.js`
(with nothing selected for deletion): for each kept segment append
`(originalPrefix || ...) + content.trim() + two newlines`, then trim. -/
def reconstructText (segs : List Segment) : JSString :=
  jsTrim (segs.foldl (fun acc s => acc ++ s.opfx ++ jsTrim s.content ++ ['\n', '\n']) [])

/-- A line matches no label pattern, in any of the edge-trimmed forms in
which it can reappear after reconstruction. -/
def lineLabelFree (l : JSString) : Bool :=
  (lineLabel l).isNone && (lineLabel (jsTrimLeft l)).isNone &&
  (lineLabel (jsTrimRight l)).isNone && (lineLabel (jsTrim l)).isNone

/-- The concatenation `content + two newlines` over a list of block
contents, as produced by reconstruction over alternation output. -/
def reconJoin (cs : List JSString) : JSString :=
  (cs.map (fun c => c ++ ['\n', '\n'])).flatten

/-! ### SpeakerClassifier (the enhanced zero-shot classifier source file) -/

/-- Speaker values of the classifier: `ai` (counterpart), `user` (primary),
`uncertain`. -/
inductive Speaker where
  | ai
  | user
  | uncertain
deriving DecidableEq, Repr

/-- The result object of `classifyTurn`: speaker, confidence, the two raw
scores, and the optional `correctedBy` field written by `validateSequence`.
(The diagnostic `features` map is not needed by any claim; every feature
predicate is embedded below as a named definition feeding the scores.) -/
structure ClassificationResult where
  speaker : Speaker
  confidence : ℚ
  scoreAI : ℕ
  scoreUser : ℕ
  correctedBy : Option JSString := none
deriving DecidableEq, Repr

/-- `Math.min` on rationals. -/
def jsMin (a b : ℚ) : ℚ := if a ≤ b then a else b

/-- `Math.abs` on integers. -/
def jsAbs (d : ℤ) : ℤ := if d < 0 then -d else d

/-- Rational addition, written out on numerators and denominators so that
the kernel can evaluate it (`Rat.add` is `@[irreducible]`); equal to `+`
by `qAdd_eq`. -/
def qAdd (a b : ℚ) : ℚ := mkRat (a.num * b.den + b.num * a.den) (a.den * b.den)

/-- Multiplication of a rational by a natural number, written out on the
numerator so that the kernel can evaluate it; equal to `*` by `qMulN_eq`. -/
def qMulN (a : ℚ) (n : ℕ) : ℚ := mkRat (a.num * n) a.den

/-- `Math.round(x * 100) / 100`: round to two decimal places (JS
`Math.round x` is `⌊x + 1/2⌋`, computed here with `Rat.floor`). -/
def round2 (q : ℚ) : ℚ := mkRat ((qAdd (qMulN q 100) (mkRat 1 2)).floor) 100

/-- The small-acknowledgement regex
`/^(ok|okay|yes|yeah|no|nope|sure|thanks?|thx)$/i` as a whole-string test. -/
def ackTest (t : JSString) : Bool :=
  [("ok".data), ("okay".data), ("yes".data), ("yeah".data), ("no".data), ("nope".data),
   ("sure".data), ("thank".data), ("thanks".data), ("thx".data)].contains (lowerStr t)

/-- Feature `codeBlock`: the text contains a fenced code marker. -/
def codeBlockTest (t : JSString) : Bool := containsSub ("```".data) t

/-- `#{1,3}` followed by a `\s` character at the given position. -/
def hashCheck (k : Nat) (l : JSString) : Bool :=
  (l.take k).length = k && (l.take k).all (fun c => c = '#') &&
  (match (l.drop k).head? with | some c => jsIsSpace c | none => false)

/-- `/^#{1,3}\s/` at one position. -/
def headingAt (l : JSString) : Bool := hashCheck 1 l || hashCheck 2 l || hashCheck 3 l

/-- Does `p` hold at the start of the text or just after some newline?
(The `m` flag: `^` matches at the start and after every newline.) -/
def atLineStartsAux (p : JSString → Bool) : JSString → Bool
  | [] => false
  | c :: rest => (if c = '\n' then p rest else false) || atLineStartsAux p rest

/-- Multiline anchored test `/^…/m`. -/
def atLineStarts (p : JSString → Bool) (t : JSString) : Bool := p t || atLineStartsAux p t

/-- Feature `markdownHeading`: `/^#{1,3}\s/m`. -/
def markdownHeadingTest (t : JSString) : Bool := atLineStarts headingAt t

/-- `t.split(/\n\n+/)` with explicit fuel (the fuel is only a structural
termination device; `splitParas` supplies enough for the whole string, and
the run of newlines consumed at a break always shortens the rest below the
remaining fuel). -/
def splitParasFuel : ℕ → JSString → List JSString
  | 0, _ => [[]]
  | _ + 1, [] => [[]]
  | fuel + 1, c :: rest =>
    if c = '\n' && rest.head? = some '\n' then
      [] :: splitParasFuel fuel (rest.dropWhile (fun d => d = '\n'))
    else
      match splitParasFuel fuel rest with
      | [] => [[c]]
      | l :: ls => (c :: l) :: ls

/-- `t.split(/\n\n+/)`: split on maximal runs of at least two newlines. -/
def splitParas (s : JSString) : List JSString := splitParasFuel (s.length + 1) s

/-- Feature `multiParagraph`: more than two non-blank paragraphs. -/
def multiParagraphTest (t : JSString) : Bool :=
  ((splitParas t).filter (fun p => (jsTrim p).length > 0)).length > 2

/-- Feature `longText`. -/
def longTextTest (t : JSString) : Bool := t.length > 500

/-- Feature `shortText` (the `else if` branch of `longText`). -/
def shortTextTest (t : JSString) : Bool := !(t.length > 500) && t.length < 80

/-- Feature `endsWithQuestion`: `/\?$/`. -/
def endsWithQuestionTest (t : JSString) : Bool := t.getLast? = some '?'

/-- Feature `politeRequest`. -/
def politeRequestTest (t : JSString) : Bool :=
  wordTest [("please".data), ("could you".data), ("can you".data), ("would you".data),
            ("will you".data), ("may i".data)] t

/-- Feature `presentationPhrase`.  The patterns with an apostrophe are built
with `Char.ofNat 39`. -/
def presentationTest (t : JSString) : Bool :=
  wordTest [("here is".data), ("here are".data),
            ("here".data ++ [Char.ofNat 39] ++ "s a".data),
            ("here".data ++ [Char.ofNat 39] ++ "s an".data)] t

/-- Feature `offerHelp`. -/
def offerHelpTest (t : JSString) : Bool :=
  wordTest [("i".data ++ [Char.ofNat 39] ++ "ll".data), ("i will".data),
            ("let me".data), ("i can".data)] t

/-- Feature `casualSpeech`. -/
def casualSpeechTest (t : JSString) : Bool :=
  wordTest [("yeah".data), ("nah".data), ("gonna".data), ("wanna".data),
            ("kinda".data), ("sorta".data), ("dunno".data)] t

/-- Feature `formalConnectors`. -/
def formalConnectorsTest (t : JSString) : Bool :=
  wordTest [("additionally".data), ("furthermore".data), ("therefore".data),
            ("however".data), ("moreover".data), ("consequently".data)] t

/-- Feature `metaReference`. -/
def metaReferenceTest (t : JSString) : Bool :=
  wordTest [("as mentioned".data), ("as i said".data), ("as noted".data),
            ("as discussed".data)] t

/-- Feature `apologetic`. -/
def apologeticTest (t : JSString) : Bool :=
  wordTest [("sorry".data), ("apologies".data), ("apologize".data), ("my mistake".data)] t

/-- Feature `imperativeCommand` (anchored). -/
def imperativeTest (t : JSString) : Bool :=
  anchoredWordTest [("make".data), ("create".data), ("write".data), ("fix".data),
                    ("explain".data), ("generate".data), ("show".data), ("give me".data),
                    ("help".data), ("build".data), ("design".data)] t

/-- A code keyword followed by `\s+\w` at the start of the given suffix
(one alternative of the `hasCode` regex; note this regex has no `i` flag). -/
def kwWsWordAt (kw s : JSString) : Bool :=
  startsWith s kw &&
  (match (s.drop kw.length).head? with | some c => jsIsSpace c | none => false) &&
  (match ((s.drop kw.length).dropWhile jsIsSpace).head? with
   | some c => isWordChar c
   | none => false)

/-- The `<\w+[^>]*>` alternative of the `hasCode` regex at the start of the
given suffix. -/
def tagAt : JSString → Bool
  | '<' :: d :: rest => isWordChar d && rest.any (fun c => c = '>')
  | _ => false

/-- Does `p` hold at some suffix of the text (unanchored regex search)? -/
def existsSuffix (p : JSString → Bool) : JSString → Bool
  | [] => p []
  | c :: cs => p (c :: cs) || existsSuffix p cs

/-- `hasCode` of the `explainedCode` feature:
`/function\s+\w+|const\s+\w+|let\s+\w+|var\s+\w+|<\w+[^>]*>|class\s+\w+/`. -/
def hasCodeTest (t : JSString) : Bool :=
  existsSuffix (fun s =>
    kwWsWordAt ("function".data) s || kwWsWordAt ("const".data) s ||
    kwWsWordAt ("let".data) s || kwWsWordAt ("var".data) s ||
    tagAt s || kwWsWordAt ("class".data) s) t

/-- `hasExplanation` of the `explainedCode` feature. -/
def hasExplanationTest (t : JSString) : Bool :=
  wordTest [("this".data), ("the".data), ("here".data), ("will".data),
            ("should".data), ("can".data)] t

/-- Feature `explainedCode`: code with explanatory context and length over 100. -/
def explainedCodeTest (t : JSString) : Bool :=
  hasCodeTest t && hasExplanationTest t && t.length > 100

/-- `\d+\.\s.{20,}` at one position (`.` never matches a newline). -/
def numberedItemAt (l : JSString) : Bool :=
  let ds := l.takeWhile (fun c => c.isDigit)
  ds ≠ [] &&
  (match l.drop ds.length with
   | '.' :: r =>
     (match r with
      | x :: xs => jsIsSpace x && xs.length ≥ 20 && (xs.take 20).all (fun c => !(c = '\n'))
      | [] => false)
   | _ => false)

/-- `[-*]\s.{20,}` at one position. -/
def bulletItemAt : JSString → Bool
  | c :: x :: xs =>
    (c = '-' || c = '*') && jsIsSpace x && xs.length ≥ 20 && (xs.take 20).all (fun d => !(d = '\n'))
  | _ => false

/-- Feature `detailedList`: `/^\d+\.\s.{20,}/m || /^[-*]\s.{20,}/m`. -/
def detailedListTest (t : JSString) : Bool :=
  atLineStarts numberedItemAt t || atLineStarts bulletItemAt t

/-- Feature `gratitude`. -/
def gratitudeTest (t : JSString) : Bool :=
  wordTest [("thanks".data), ("thank you".data), ("thx".data), ("appreciate".data)] t

/-- Feature `hasEmoji`: the source regex is literally `/[pEmoji]/u`, a
character class containing exactly the six letters `p`, `E`, `m`, `o`, `j`,
`i` — not a Unicode emoji property test. -/
def emojiTest (t : JSString) : Bool :=
  t.any (fun c => c = 'p' || c = 'E' || c = 'm' || c = 'o' || c = 'j' || c = 'i')

/-- Feature `capsIntensity`: uppercase-letter ratio above 0.3 and length
above 10 (the ratio compare is modelled exactly over ℚ). -/
def capsIntensityTest (t : JSString) : Bool :=
  10 * (t.filter (fun c => 'A' ≤ c && c ≤ 'Z')).length > 3 * t.length && t.length > 10

/-- Feature `explicitUserMarker`: `/^(user|human|me):/i`. -/
def explicitUserTest (t : JSString) : Bool :=
  [("user".data), ("human".data), ("me".data)].any
    (fun p => startsWith (lowerStr t) (p ++ [':']))

/-- Feature `explicitAIMarker`: `/^(assistant|ai|claude|gpt|bot):/i`. -/
def explicitAITest (t : JSString) : Bool :=
  [("assistant".data), ("ai".data), ("claude".data), ("gpt".data), ("bot".data)].any
    (fun p => startsWith (lowerStr t) (p ++ [':']))

/-- `scoreAI` after the feature loop of `classifyTurn` (sum of the fired
counterpart-side weights, in source order, plus the context bonus). -/
def scoreAIOf (t : JSString) (previousSpeaker : Option Speaker) : ℕ :=
  (if codeBlockTest t then 4 else 0) +
  (if markdownHeadingTest t then 2 else 0) +
  (if longTextTest t then 3 else 0) +
  (if multiParagraphTest t then 2 else 0) +
  (if presentationTest t then 3 else 0) +
  (if offerHelpTest t then 2 else 0) +
  (if formalConnectorsTest t then 2 else 0) +
  (if metaReferenceTest t then 2 else 0) +
  (if apologeticTest t then 2 else 0) +
  (if explainedCodeTest t then 2 else 0) +
  (if detailedListTest t then 2 else 0) +
  (if explicitAITest t then 10 else 0) +
  (if previousSpeaker = some Speaker.user then 1 else 0)

/-- `scoreUser` after the feature loop of `classifyTurn`. -/
def scoreUserOf (t : JSString) (previousSpeaker : Option Speaker) : ℕ :=
  (if shortTextTest t then 2 else 0) +
  (if endsWithQuestionTest t then 3 else 0) +
  (if politeRequestTest t then 3 else 0) +
  (if casualSpeechTest t then 2 else 0) +
  (if imperativeTest t then 3 else 0) +
  (if gratitudeTest t then 2 else 0) +
  (if emojiTest t then 2 else 0) +
  (if capsIntensityTest t then 2 else 0) +
  (if explicitUserTest t then 10 else 0) +
  (if previousSpeaker = some Speaker.ai then 1 else 0)

/-- `SpeakerClassifier.classifyTurn`. -/
def classifyTurn (text : JSString) (previousSpeaker : Option Speaker) : ClassificationResult :=
  let t := jsTrim text
  if t.length < 15 ∧ ackTest t then
    { speaker := Speaker.uncertain, confidence := mkRat 1 2, scoreAI := 0, scoreUser := 0 }
  else
    let scoreAI := scoreAIOf t previousSpeaker
    let scoreUser := scoreUserOf t previousSpeaker
    let diff : ℤ := (scoreAI : ℤ) - (scoreUser : ℤ)
    if diff ≥ 4 then
      { speaker := Speaker.ai,
        confidence := round2 (jsMin (mkRat 95 100) (qAdd (mkRat 7 10) (mkRat diff 20))),
        scoreAI := scoreAI, scoreUser := scoreUser }
    else if diff ≤ -3 then
      { speaker := Speaker.user,
        confidence := round2 (jsMin (mkRat 95 100) (qAdd (mkRat 7 10) (mkRat (jsAbs diff) 20))),
        scoreAI := scoreAI, scoreUser := scoreUser }
    else
      { speaker := Speaker.uncertain, confidence := round2 (mkRat 1 2),
        scoreAI := scoreAI, scoreUser := scoreUser }

/-- A placeholder for out-of-range list reads (never hit on well-formed
inputs; JS would read `undefined`). -/
def defaultResult : ClassificationResult :=
  { speaker := Speaker.uncertain, confidence := 0, scoreAI := 0, scoreUser := 0 }

/-- The speaker stored at index `i` of the (mutated) result list. -/
def spkAt (rs : List ClassificationResult) (i : ℕ) : Speaker := (rs.getD i defaultResult).speaker

/-- Rule 1 of `validateSequence` at loop index `i`: three consecutive `ai`
turns with a short question in the middle reclassify index `i-1` as `user`. -/
def rule1 (turns : List JSString) (rs : List ClassificationResult) (i : ℕ) :
    List ClassificationResult :=
  if 2 ≤ i ∧ spkAt rs i = Speaker.ai ∧ spkAt rs (i-1) = Speaker.ai ∧
     spkAt rs (i-2) = Speaker.ai ∧
     (turns.getD (i-1) []).length < 100 ∧ (turns.getD (i-1) []).contains '?' then
    rs.set (i-1) { rs.getD (i-1) defaultResult with
                   speaker := Speaker.user,
                   correctedBy := some ("sequenceValidation".data),
                   confidence := mkRat 13 20 }
  else rs

/-- Rule 2 of `validateSequence` at loop index `i`: an `uncertain` turn
after a definite one alternates. -/
def rule2 (rs : List ClassificationResult) (i : ℕ) : List ClassificationResult :=
  if spkAt rs i = Speaker.uncertain ∧ 0 < i ∧
     (spkAt rs (i-1) = Speaker.ai ∨ spkAt rs (i-1) = Speaker.user) then
    rs.set i { rs.getD i defaultResult with
               speaker := if spkAt rs (i-1) = Speaker.ai then Speaker.user else Speaker.ai,
               correctedBy := some ("alternationPattern".data),
               confidence := mkRat 3 5 }
  else rs

/-- One iteration of the `validateSequence` loop: rule 1 then rule 2,
both reading the current (possibly already mutated) result list. -/
def valStep (turns : List JSString) (rs : List ClassificationResult) (i : ℕ) :
    List ClassificationResult :=
  rule2 (rule1 turns rs i) i

/-- `SpeakerClassifier.validateSequence`: one forward pass, ascending index. -/
def validateSequence (rs : List ClassificationResult) (turns : List JSString) :
    List ClassificationResult :=
  (List.range rs.length).foldl (valStep turns) rs

/-- First pass of `classifyConversation`: classify each turn, feeding each
result's own speaker as the `previousSpeaker` of the next turn. -/
def classifyPass (turns : List JSString) : List ClassificationResult :=
  (turns.foldl
    (fun (st : Option Speaker × List ClassificationResult) turn =>
      let r := classifyTurn turn st.1
      (some r.speaker, st.2 ++ [r]))
    (none, [])).2

/-- `SpeakerClassifier.classifyConversation`: classification pass followed
by sequence validation. -/
def classifyConversation (turns : List JSString) : List ClassificationResult :=
  validateSequence (classifyPass turns) turns

/-! ### Definitions taken from the specification text (for comparison
against the embedded source code) -/

/-- Modelled from the spec (claim C4): the speaker as a function of
`diff = counterpart_score − primary_score` alone. -/
def specSpeakerOf (diff : ℤ) : Speaker :=
  if diff ≥ 4 then Speaker.ai
  else if diff ≤ -3 then Speaker.user
  else Speaker.uncertain

/-- Modelled from the spec (claim C4): the confidence as a function of
`diff` alone: `min(0.95, 0.7 + |diff|/20)` in the definite cases, `0.5`
otherwise, rounded to two decimal places. -/
def specConfidenceOf (diff : ℤ) : ℚ :=
  if diff ≥ 4 ∨ diff ≤ -3 then
    round2 (jsMin (mkRat 95 100) (qAdd (mkRat 7 10) (mkRat (jsAbs diff) 20)))
  else mkRat 1 2

/-- The claims' correspondence between classifier speakers and segment
kinds: `counterpart` = `ai`, `primary` = `user`. -/
def speakerToSegType : Speaker → SegType
  | Speaker.ai => SegType.ai
  | Speaker.user => SegType.user
  | Speaker.uncertain => SegType.unknown

/-- Modelled from the spec (claim C1): the classifier-plus-validator
speaker assignment over the blank-line blocks of the text — run
`classifyConversation` (which feeds each turn's own classification as the
next `previousSpeaker` hint and then applies `validateSequence`) over the
trimmed blocks, and read the resulting speakers as segment kinds. -/
def claimAssignment (text : JSString) : List SegType :=
  (classifyConversation ((splitBlocksRaw text).map jsTrim)).map
    (fun r => speakerToSegType r.speaker)

/-! ### Concrete inputs used by counterexamples and witnesses -/

/-- Counterexample input for C1: two blank-line-separated blocks, no
labels; the first block carries strong counterpart features. -/
def c1text : JSString :=
  ("Here is the solution. As mentioned, I will therefore proceed with the implementation of the function. Additionally, let me explain.\n\nok then").data

/-- Counterexample input for C2: a single unbroken block with no labels. -/
def c2text : JSString := ("hello world").data

/-- Failing input for C3: starts with the explicit marker, but eight
primary-side features (short text, final question mark, polite request,
casual speech, gratitude, the letter class of the emoji feature, caps
ratio, follows-counterpart bonus) total 17 against the marker's 10. -/
def c3text : JSString := ("assistant: PLEASE, CAN YOU? THANKS, YEAH?").data

/-- An arbitrary all-`ai` classification result used by the C5 inputs. -/
def aiResult : ClassificationResult :=
  { speaker := Speaker.ai, confidence := mkRat 19 20, scoreAI := 9, scoreUser := 2 }

/-- C5 counterexample: four consecutive `ai` results. -/
def c5rs : List ClassificationResult := [aiResult, aiResult, aiResult, aiResult]

/-- C5 counterexample turn texts: the texts at indices 1 and 2 are both
short questions, so the run-break rule fires at loop index 2 and thereby
disables itself at loop index 3. -/
def c5ts : List JSString :=
  [("first long message here".data), ("hm?".data), ("ok?".data), ("closing message".data)]

/-- C6 failing input: plain ASCII letters and spaces, no emoji. -/
def c6text : JSString := ("good morning").data

/-- C6 comparison input: a single actual emoji character (U+1F600). -/
def c6emoji : JSString := [Char.ofNat 0x1F600]

/-- Counterexample input for C7: no line matches a label pattern (the
leading spaces defeat the keyword regex), so the pipeline uses strict
alternation; reconstruction strips the leading spaces and so promotes both
lines into keyword labels on re-parsing. -/
def c7text : JSString := ("  ## assistant yo\n\n  ## user hi").data

/-- Witness line for C8: 101 non-colon characters before the first colon. -/
def c8line : JSString := List.replicate 101 'a' ++ (": x").data

/-- Witness input for the amended C7: two label-free blank-line-separated
blocks. -/
def c7w : JSString := ("hello\n\nworld").data

/-- An uncertain classification result, used by the C10 witness. -/
def uncResult : ClassificationResult :=
  { speaker := Speaker.uncertain, confidence := mkRat 1 2, scoreAI := 0, scoreUser := 0 }

/-! ### Sanity lemmas for the kernel-friendly rational helpers -/

/-- `qAdd` is ordinary rational addition. -/
theorem qAdd_eq (a b : ℚ) : qAdd a b = a + b := (Rat.add_def' a b).symm

/-- `qMulN` is ordinary rational multiplication. -/
theorem qMulN_eq (a : ℚ) (n : ℕ) : qMulN a n = a * n := by
  rw [qMulN, Rat.mul_def, Rat.normalize_eq_mkRat]
  norm_num

/-- The `mkRat` constants used in the embedding are the expected decimal
values. -/
theorem mkRat_constants :
    mkRat 95 100 = (95/100 : ℚ) ∧ mkRat 7 10 = (7/10 : ℚ) ∧ mkRat 1 2 = (1/2 : ℚ) ∧
    mkRat 19 20 = (19/20 : ℚ) ∧ mkRat 13 20 = (13/20 : ℚ) ∧ mkRat 3 5 = (3/5 : ℚ) ∧
    mkRat 9 10 = (9/10 : ℚ) := by
  repeat' constructor
  all_goals rw [Rat.mkRat_eq_divInt, Rat.divInt_eq_div] ; norm_num

/-! ### Counterexamples and code-bug evaluations -/

/-- Claim C1, counterexample: on `c1text` the labels are inconclusive and
the accepted second strategy returns kinds `[user, ai]` by strict
alternation, while the classifier-plus-validator assignment over the same
blocks is `[ai, user]`; the speaker assignments differ, so the second
strategy is not classifier-based. -/
theorem C1_counterexample :
    (parseSegments c1text).map Segment.type = [SegType.user, SegType.ai] ∧
    claimAssignment c1text = [SegType.ai, SegType.user] ∧
    (parseSegments c1text).map Segment.type ≠ claimAssignment c1text := by
  refine ⟨?_, ?_, ?_⟩
  · set_option maxRecDepth 200000 in decide
  · set_option maxRecDepth 200000 in decide
  · set_option maxRecDepth 200000 in decide

/-- Claim C2, counterexample: a single unbroken block with no labels
yields exactly one turn, but its kind is `unknown`, not `primary` — the
heuristic fallback keeps its `< 2 blocks` gate, so no strategy relabels
the lone block. -/
theorem C2_counterexample :
    (parseSegments c2text).map Segment.type = [SegType.unknown] ∧
    (parseSegments c2text).map Segment.type ≠ [SegType.user] := by
  constructor
  · set_option maxRecDepth 10000 in decide
  · set_option maxRecDepth 10000 in decide

/-- Claim C3, evaluation at the failing input: `c3text` starts with
`assistant:` (the explicit counterpart marker fires, 10 points) and yet
classifies as `user`, because eight primary-side features total 17.  This
contradicts the source's own comment that explicit markers
`override everything`. -/
theorem C3_marker_outvoted :
    explicitAITest (jsTrim c3text) = true ∧
    classifyTurn c3text (some Speaker.ai) =
      { speaker := Speaker.user, confidence := mkRat 19 20,
        scoreAI := 10, scoreUser := 17 } := by
  constructor
  · set_option maxRecDepth 10000 in decide
  · set_option maxRecDepth 10000 in decide

/-- Claim C5, counterexample: in `c5rs`/`c5ts` the input results at
indices 1, 2, 3 are all `ai` and the text at index 2 is a short question,
yet after `validateSequence` the result at index 2 is still `ai` and
uncorrected: the run-break rule had already fired at loop index 2
(correcting index 1), which defuses the triple at loop index 3. -/
theorem C5_counterexample :
    (spkAt c5rs 1 = Speaker.ai ∧ spkAt c5rs 2 = Speaker.ai ∧ spkAt c5rs 3 = Speaker.ai ∧
     (c5ts.getD 2 []).length < 100 ∧ (c5ts.getD 2 []).contains '?' = true) ∧
    spkAt (validateSequence c5rs c5ts) 2 = Speaker.ai ∧
    ((validateSequence c5rs c5ts).getD 2 defaultResult).correctedBy = none ∧
    spkAt (validateSequence c5rs c5ts) 1 = Speaker.user := by
  exact ⟨by decide, by decide, by decide, by decide⟩

/-- Claim C6, evaluation at the failing inputs: the `hasEmoji` regex
`/[pEmoji]/u` is a character class of the six letters `p E m o j i`; it
fires on the emoji-free ASCII text `good morning` (adding 2 to the primary
score), and does not fire on an actual emoji character. -/
theorem C6_emoji_class :
    emojiTest c6text = true ∧
    emojiTest c6emoji = false ∧
    scoreUserOf c6text none = 4 ∧ scoreUserOf ("bcdq rstuvz".data) none = 2 := by
  exact ⟨by decide, by decide, by decide, by decide⟩

/-- Claim C7, counterexample: on `c7text` the pipeline returns kinds
`[user, ai]`, but re-segmenting the reconstructed text returns
`[ai, user]` — reconstruction left-trims each block, which promotes the
previously indented `## assistant` and `## user` lines into keyword
labels. -/
theorem C7_counterexample :
    (parseSegments c7text).map Segment.type = [SegType.user, SegType.ai] ∧
    (parseSegments (reconstructText (parseSegments c7text))).map Segment.type =
      [SegType.ai, SegType.user] ∧
    (parseSegments (reconstructText (parseSegments c7text))).map Segment.type ≠
      (parseSegments c7text).map Segment.type := by
  refine ⟨?_, ?_, ?_⟩
  · set_option maxRecDepth 40000 in decide
  · set_option maxRecDepth 40000 in decide
  · set_option maxRecDepth 40000 in decide

/-! ### C4: the decision thresholds -/

/-- Rounding half to two decimals is the identity. -/
theorem round2_half : round2 (mkRat 1 2) = mkRat 1 2 := by decide

/-- Claim C4: for every text and previous-speaker hint, the speaker and the
confidence of `classifyTurn` are exactly the stated function of
`diff = counterpart_score − primary_score`: `diff ≥ 4` gives counterpart
and `diff ≤ −3` gives primary, both at confidence
`min(0.95, 0.7 + |diff|/20)`; otherwise the speaker is uncertain at
confidence `0.5`; confidences are rounded to two decimal places.  In
particular `diff = 4` gives counterpart, `3` uncertain, `−3` primary and
`−2` uncertain. -/
theorem C4_threshold (text : JSString) (prev : Option Speaker) :
    (classifyTurn text prev).speaker =
      specSpeakerOf (((classifyTurn text prev).scoreAI : ℤ) - ((classifyTurn text prev).scoreUser : ℤ)) ∧
    (classifyTurn text prev).confidence =
      specConfidenceOf (((classifyTurn text prev).scoreAI : ℤ) - ((classifyTurn text prev).scoreUser : ℤ)) := by
  simp only [classifyTurn]
  split_ifs with h0 h4 h3
  · constructor
    · norm_num [specSpeakerOf]
    · norm_num [specConfidenceOf]
  · refine ⟨?_, ?_⟩
    · simp only [specSpeakerOf]
      rw [if_pos h4]
    · simp only [specConfidenceOf]
      rw [if_pos (Or.inl h4)]
      have habs : jsAbs ((scoreAIOf (jsTrim text) prev : ℤ) - (scoreUserOf (jsTrim text) prev : ℤ))
          = (scoreAIOf (jsTrim text) prev : ℤ) - (scoreUserOf (jsTrim text) prev : ℤ) := by
        unfold jsAbs
        rw [if_neg]
        omega
      rw [habs]
  · refine ⟨?_, ?_⟩
    · simp only [specSpeakerOf]
      rw [if_neg h4, if_pos h3]
    · simp only [specConfidenceOf]
      rw [if_pos (Or.inr h3)]
  · refine ⟨?_, ?_⟩
    · simp only [specSpeakerOf]
      rw [if_neg h4, if_neg h3]
    · simp only [specConfidenceOf]
      rw [if_neg (by push_neg; omega)]
      exact round2_half

/-! ### C8: the 100-character label bound -/

/-- If the part of the line before its first colon is longer than 100
characters, then the take of non-colon non-newline characters that the
permissive regex group would match has the same length as the take of
plain non-colon characters whenever a colon follows it. -/
theorem takeWhile_colon_eq (line r : JSString)
    (h : line.drop ((line.takeWhile (fun c => !(c = ':') && !(c = '\n'))).length) = ':' :: r) :
    (line.takeWhile (fun c => !(c = ':') && !(c = '\n'))).length =
      (line.takeWhile (fun c => !(c = ':'))).length := by
  induction line generalizing r with
  | nil => simp at h
  | cons c cs ih =>
    by_cases hc : (!(c = ':') && !(c = '\n')) = true
    · have hc' : (!(c = ':')) = true := by
        revert hc
        simp only [Bool.and_eq_true]
        exact fun h => h.1
      rw [List.takeWhile_cons, if_pos hc] at h ⊢
      rw [List.takeWhile_cons, if_pos hc']
      simp only [List.length_cons, List.drop_succ_cons] at h ⊢
      exact congrArg Nat.succ (ih r h)
    · rw [List.takeWhile_cons, if_neg hc] at h ⊢
      simp only [List.length_nil, List.drop_zero] at h
      have hcol : c = ':' := by
        injection h with h1 h2
      rw [List.takeWhile_cons, if_neg (by simp [hcol])]

/-- Claim C8: a line in which more than 100 non-colon characters precede
the first colon never matches the permissive colon-label pattern, and —
unless the keyword-anchored pattern captures it — the line is appended to
the current accumulating turn's content instead of starting a new turn. -/
theorem C8_label_length_bound (line : JSString) (st : LabelState)
    (h : 100 < (line.takeWhile (fun c => !(c = ':'))).length) :
    permissiveMatch line = none ∧
    (keywordMatch line = none →
      labelStep st line =
        { st with cur := { st.cur with content := st.cur.content ++ line ++ ['\n'] } }) := by
  have hperm : permissiveMatch line = none := by
    simp only [permissiveMatch]
    split
    next c rest2 hd =>
      apply if_neg
      rintro ⟨hc, -, hle, -⟩
      have hlen := takeWhile_colon_eq line rest2 (by rw [hd, hc])
      omega
    next => rfl
  refine ⟨hperm, fun hkw => ?_⟩
  unfold labelStep lineLabel
  rw [hperm, hkw]

/-- Witness for C8 at the concrete line of 101 `a`s before a colon. -/
theorem C8_label_length_bound_witness :
    permissiveMatch c8line = none ∧
    labelStep { cur := initSeg, segs := [] } c8line =
      { cur := { initSeg with content := initSeg.content ++ c8line ++ ['\n'] }, segs := [] } := by
  have h := C8_label_length_bound c8line { cur := initSeg, segs := [] } (by decide)
  exact ⟨h.1, h.2 (by decide)⟩

/-! ### C9: no whitespace-only content in the output -/

/-- Claim C9: every turn returned by `parseSegments` has content that is
non-empty after trimming. -/
theorem C9_no_blank_content (text : JSString) (seg : Segment)
    (h : seg ∈ parseSegments text) : jsTrim seg.content ≠ [] := by
  simp only [parseSegments, List.mem_filter] at h
  simpa using h.2

/-- Witness for C9 at a concrete input and its single output turn. -/
theorem C9_no_blank_content_witness :
    jsTrim (("hi\n").data) ≠ [] :=
  C9_no_blank_content (("hi").data)
    { type := SegType.unknown, speaker := ("Unknown").data,
      content := ("hi\n").data, opfx := [] }
    (by decide)

/-! ### C5 (amended): the run-break rule on a three-element conversation -/

/-- Claim C5 as amended: on a three-element all-counterpart input whose
middle text is shorter than 100 characters and contains `?`, the
validator reclassifies the middle result as primary with confidence 0.65
and `corrected_by = "sequenceValidation"`, leaving the outer results
untouched.  (For longer inputs the rule reads the current, possibly
already-corrected results, so an earlier correction can disable a later
triple — see the counterexample.) -/
theorem C5_run_break (t0 t1 t2 : JSString) (r0 r1 r2 : ClassificationResult)
    (h0 : r0.speaker = Speaker.ai) (h1 : r1.speaker = Speaker.ai)
    (h2 : r2.speaker = Speaker.ai)
    (hl : t1.length < 100) (hq : t1.contains '?' = true) :
    validateSequence [r0, r1, r2] [t0, t1, t2] =
      [r0,
       { r1 with speaker := Speaker.user, confidence := mkRat 13 20,
                 correctedBy := some (("sequenceValidation").data) },
       r2] := by
  have a0 : rule1 [t0, t1, t2] [r0, r1, r2] 0 = [r0, r1, r2] := by
    unfold rule1
    exact if_neg (by rintro ⟨hx, -⟩; omega)
  have b0 : rule2 [r0, r1, r2] 0 = [r0, r1, r2] := by
    unfold rule2
    refine if_neg ?_
    rintro ⟨hu, -⟩
    rw [show spkAt [r0, r1, r2] 0 = r0.speaker from rfl, h0] at hu
    exact Speaker.noConfusion hu
  have e0 : valStep [t0, t1, t2] [r0, r1, r2] 0 = [r0, r1, r2] := by
    unfold valStep
    rw [a0, b0]
  have a1 : rule1 [t0, t1, t2] [r0, r1, r2] 1 = [r0, r1, r2] := by
    unfold rule1
    exact if_neg (by rintro ⟨hx, -⟩; omega)
  have b1 : rule2 [r0, r1, r2] 1 = [r0, r1, r2] := by
    unfold rule2
    refine if_neg ?_
    rintro ⟨hu, -⟩
    rw [show spkAt [r0, r1, r2] 1 = r1.speaker from rfl, h1] at hu
    exact Speaker.noConfusion hu
  have e1 : valStep [t0, t1, t2] [r0, r1, r2] 1 = [r0, r1, r2] := by
    unfold valStep
    rw [a1, b1]
  have a2 : rule1 [t0, t1, t2] [r0, r1, r2] 2 =
      [r0,
       { r1 with speaker := Speaker.user, confidence := mkRat 13 20,
                 correctedBy := some (("sequenceValidation").data) },
       r2] := by
    unfold rule1
    rw [if_pos ⟨by omega,
        by rw [show spkAt [r0, r1, r2] 2 = r2.speaker from rfl, h2],
        by rw [show spkAt [r0, r1, r2] (2-1) = r1.speaker from rfl, h1],
        by rw [show spkAt [r0, r1, r2] (2-2) = r0.speaker from rfl, h0],
        by exact hl, by exact hq⟩]
    rfl
  have b2 : rule2
      [r0,
       { r1 with speaker := Speaker.user, confidence := mkRat 13 20,
                 correctedBy := some (("sequenceValidation").data) },
       r2] 2 =
      [r0,
       { r1 with speaker := Speaker.user, confidence := mkRat 13 20,
                 correctedBy := some (("sequenceValidation").data) },
       r2] := by
    unfold rule2
    refine if_neg ?_
    rintro ⟨hu, -⟩
    rw [show spkAt
        [r0,
         { r1 with speaker := Speaker.user, confidence := mkRat 13 20,
                   correctedBy := some (("sequenceValidation").data) },
         r2] 2 = r2.speaker from rfl, h2] at hu
    exact Speaker.noConfusion hu
  have e2 : valStep [t0, t1, t2]
      [r0, r1, r2] 2 =
      [r0,
       { r1 with speaker := Speaker.user, confidence := mkRat 13 20,
                 correctedBy := some (("sequenceValidation").data) },
       r2] := by
    unfold valStep
    rw [a2, b2]
  show (List.range 3).foldl (valStep [t0, t1, t2]) [r0, r1, r2] = _
  rw [show List.range 3 = [0, 1, 2] from rfl]
  simp only [List.foldl_cons, List.foldl_nil]
  rw [e0, e1, e2]

/-- Witness for C5 (amended) at the spec's synthetic input with middle
text `ok?`. -/
theorem C5_run_break_witness :
    validateSequence [aiResult, aiResult, aiResult]
        [("first message").data, ("ok?").data, ("closing message").data] =
      [aiResult,
       { aiResult with speaker := Speaker.user, confidence := mkRat 13 20,
                       correctedBy := some (("sequenceValidation").data) },
       aiResult] :=
  C5_run_break (("first message").data) (("ok?").data) (("closing message").data)
    aiResult aiResult aiResult (by decide) (by decide) (by decide) (by decide) (by decide)

/-! ### Supporting lemmas on trimming and line splitting -/

/-- `dropWhile` is idempotent. -/
theorem dropWhile_idem {α : Type} (p : α → Bool) (l : List α) :
    (l.dropWhile p).dropWhile p = l.dropWhile p := by
  induction l with
  | nil => rfl
  | cons c cs ih =>
    by_cases hc : p c = true
    · rw [List.dropWhile_cons_of_pos hc, ih]
    · rw [List.dropWhile_cons_of_neg hc, List.dropWhile_cons_of_neg hc]

/-- The head of a `dropWhile` result fails the predicate. -/
theorem dropWhile_head_false {α : Type} (p : α → Bool) (l : List α) (c : α) (cs : List α)
    (h : l.dropWhile p = c :: cs) : p c = false := by
  induction l with
  | nil => simp at h
  | cons a as ih =>
    by_cases ha : p a = true
    · rw [List.dropWhile_cons_of_pos ha] at h
      exact ih h
    · rw [List.dropWhile_cons_of_neg ha] at h
      injection h with h1 h2
      subst h1
      exact Bool.eq_false_iff.mpr ha

/-- `dropWhile` of a list whose head fails the predicate is the identity. -/
theorem dropWhile_of_head_false {α : Type} (p : α → Bool) (l : List α)
    (h : ∀ c cs, l = c :: cs → p c = false) : l.dropWhile p = l := by
  cases l with
  | nil => rfl
  | cons c cs => exact List.dropWhile_cons_of_neg (by simp [h c cs rfl])

/-- `jsTrimRight` produces a prefix of its argument. -/
theorem jsTrimRight_prefix (z : JSString) : ∃ w, z = jsTrimRight z ++ w ∧ w.all jsIsSpace := by
  refine ⟨(z.reverse.takeWhile jsIsSpace).reverse, ?_, ?_⟩
  · conv_lhs => rw [← z.reverse_reverse, ← List.takeWhile_append_dropWhile (p := jsIsSpace) (l := z.reverse)]
    rw [List.reverse_append]
    rfl
  · rw [List.all_eq_true]
    intro c hc
    rw [List.mem_reverse] at hc
    exact List.mem_takeWhile_imp hc

/-- `jsTrimRight` is idempotent. -/
theorem jsTrimRight_idem (z : JSString) : jsTrimRight (jsTrimRight z) = jsTrimRight z := by
  unfold jsTrimRight
  rw [List.reverse_reverse, dropWhile_idem]

/-- `jsTrimLeft` is idempotent. -/
theorem jsTrimLeft_idem (z : JSString) : jsTrimLeft (jsTrimLeft z) = jsTrimLeft z := by
  unfold jsTrimLeft
  exact dropWhile_idem _ _

/-- Left trimming after right trimming does nothing when the string is
already left-trimmed. -/
theorem jsTrimLeft_jsTrimRight (z : JSString) (h : jsTrimLeft z = z) :
    jsTrimLeft (jsTrimRight z) = jsTrimRight z := by
  apply dropWhile_of_head_false
  intro c cs hcc
  obtain ⟨w, hw, -⟩ := jsTrimRight_prefix z
  rw [hcc] at hw
  cases z with
  | nil =>
    rw [List.nil_eq, List.append_eq_nil] at hw
    exact absurd hw.1 (List.cons_ne_nil c cs)
  | cons a as =>
    rw [List.cons_append] at hw
    injection hw with h1 h2
    have ha : jsIsSpace a = false :=
      dropWhile_head_false jsIsSpace (a :: as) a as (by simpa [jsTrimLeft] using h)
    rw [← h1]
    exact ha

/-- `jsTrim` is idempotent. -/
theorem jsTrim_idem (s : JSString) : jsTrim (jsTrim s) = jsTrim s := by
  unfold jsTrim
  rw [jsTrimLeft_jsTrimRight _ (jsTrimLeft_idem s), jsTrimRight_idem]

/-- `splitLines` never returns the empty list. -/
theorem splitLines_ne_nil (s : JSString) : splitLines s ≠ [] := by
  cases s with
  | nil => simp [splitLines]
  | cons c rest =>
    unfold splitLines
    by_cases hc : c = '\n'
    · simp [hc]
    · rw [if_neg hc]
      cases splitLines rest <;> simp

/-- Joining the lines of `s` with one trailing newline each gives
`s ++ [newline]`. -/
theorem splitLines_join (s : JSString) :
    ((splitLines s).map (fun l => l ++ ['\n'])).flatten = s ++ ['\n'] := by
  induction s with
  | nil => rfl
  | cons c rest ih =>
    unfold splitLines
    by_cases hc : c = '\n'
    · rw [if_pos hc]
      simp only [List.map_cons, List.flatten_cons, List.nil_append]
      rw [ih, hc]
      rfl
    · rw [if_neg hc]
      cases hsp : splitLines rest with
      | nil => exact absurd hsp (splitLines_ne_nil rest)
      | cons l ls =>
        rw [hsp] at ih
        simp only [List.map_cons, List.flatten_cons] at ih ⊢
        rw [List.append_assoc] at ih
        rw [List.cons_append, List.cons_append, List.append_assoc, ih]
        rw [List.cons_append]

/-- `dropWhile` over an append. -/
theorem dropWhile_append_eq {α : Type} [DecidableEq α] (p : α → Bool) (x y : List α) :
    (x ++ y).dropWhile p =
      if x.dropWhile p = [] then y.dropWhile p else x.dropWhile p ++ y := by
  induction x with
  | nil => simp
  | cons c cs ih =>
    by_cases hc : p c = true
    · rw [List.cons_append, List.dropWhile_cons_of_pos hc, List.dropWhile_cons_of_pos hc, ih]
    · rw [List.cons_append, List.dropWhile_cons_of_neg hc, List.dropWhile_cons_of_neg hc]
      rw [if_neg (List.cons_ne_nil c cs), List.cons_append]

/-- Right-trimming absorbs a trailing newline. -/
theorem jsTrimRight_append_nl (y : JSString) : jsTrimRight (y ++ ['\n']) = jsTrimRight y := by
  unfold jsTrimRight
  rw [List.reverse_append, List.reverse_singleton, List.singleton_append,
      List.dropWhile_cons_of_pos (by decide)]

/-- Trimming absorbs a trailing newline. -/
theorem jsTrim_append_nl (x : JSString) : jsTrim (x ++ ['\n']) = jsTrim x := by
  unfold jsTrim jsTrimLeft
  rw [dropWhile_append_eq]
  by_cases hx : x.dropWhile jsIsSpace = []
  · rw [if_pos hx, hx]
    rfl
  · rw [if_neg hx, jsTrimRight_append_nl]

/-- Folding the `parseByLabels` line loop over lines none of which matches
a label pattern only accumulates content. -/
theorem labelStep_foldl_none (ls : List JSString) (st : LabelState)
    (h : ∀ l ∈ ls, lineLabel l = none) :
    ls.foldl labelStep st =
      { cur := { st.cur with
                 content := st.cur.content ++ (ls.map (fun l => l ++ ['\n'])).flatten },
        segs := st.segs } := by
  induction ls generalizing st with
  | nil => simp
  | cons l ls ih =>
    simp only [List.foldl_cons]
    rw [show labelStep st l =
        { st with cur := { st.cur with content := st.cur.content ++ l ++ ['\n'] } } from by
      unfold labelStep
      rw [h l (by simp)]]
    rw [ih _ (fun l' hl' => h l' (by simp [hl']))]
    simp [List.append_assoc]

/-- `parseByLabels` on a text with no label lines returns the single
accumulated unknown segment (when the text is not whitespace-only). -/
theorem parseByLabels_none (text : JSString)
    (h : ∀ l ∈ splitLines text, lineLabel l = none) (ht : jsTrim text ≠ []) :
    parseByLabels text =
      [{ type := SegType.unknown, speaker := ("Unknown").data,
         content := text ++ ['\n'], opfx := [] }] := by
  unfold parseByLabels
  rw [labelStep_foldl_none _ _ h]
  simp only [initSeg, List.nil_append, splitLines_join]
  rw [if_neg (by rw [jsTrim_append_nl]; exact ht)]
  rfl

/-! ### C2 (amended): single unbroken unlabelled block -/

/-- Claim C2 as amended: for every input text that contains no speaker
labels and no blank-line breaks (and is not whitespace-only), the pipeline
returns exactly one turn, and its kind is `unknown` — the heuristic
fallback keeps its two-block gate, so the lone block is never relabelled
primary. -/
theorem C2_single_block (text : JSString)
    (hno : ∀ l ∈ splitLines text, lineLabel l = none)
    (hb : (splitBlocksRaw text).length < 2)
    (ht : jsTrim text ≠ []) :
    parseSegments text =
      [{ type := SegType.unknown, speaker := ("Unknown").data,
         content := text ++ ['\n'], opfx := [] }] := by
  have hpl := parseByLabels_none text hno ht
  have halt : parseByAlternatingTurns text = [] := by
    unfold parseByAlternatingTurns
    rw [if_pos hb]
  have hheu : parseByHeuristicSplit text = [] := by
    unfold parseByHeuristicSplit
    rw [if_pos hb]
  simp only [parseSegments, hpl, halt, hheu]
  norm_num
  simp [jsTrim_append_nl, ht]

/-- Witness for C2 (amended) at the concrete single-block text. -/
theorem C2_single_block_witness :
    parseSegments c2text =
      [{ type := SegType.unknown, speaker := ("Unknown").data,
         content := c2text ++ ['\n'], opfx := [] }] :=
  C2_single_block c2text (by decide) (by decide) (by decide)

/-! ### C1 (amended): the accepted second strategy is strict alternation -/

/-- Invariant of the `parseByAlternatingTurns` fold: the turn flag tracks
the parity of the accumulated list, every accumulated segment has trimmed
non-empty content, and the kinds alternate starting with `user`. -/
theorem altStep_foldl_inv (blocks : List JSString) (st : Bool × List Segment)
    (hflag : st.1 = decide (st.2.length % 2 = 0))
    (hseg : ∀ seg ∈ st.2, jsTrim seg.content = seg.content ∧ seg.content ≠ [])
    (hty : ∀ i, i < st.2.length →
      (st.2.getD i initSeg).type = (if i % 2 = 0 then SegType.user else SegType.ai)) :
    (blocks.foldl altStep st).1 = decide ((blocks.foldl altStep st).2.length % 2 = 0) ∧
    (∀ seg ∈ (blocks.foldl altStep st).2,
      jsTrim seg.content = seg.content ∧ seg.content ≠ []) ∧
    (∀ i, i < (blocks.foldl altStep st).2.length →
      ((blocks.foldl altStep st).2.getD i initSeg).type =
        (if i % 2 = 0 then SegType.user else SegType.ai)) := by
  induction blocks generalizing st with
  | nil => exact ⟨hflag, hseg, hty⟩
  | cons b bs ih =>
    simp only [List.foldl_cons]
    by_cases hb : jsTrim b = []
    · simp only [show altStep st b = st from by unfold altStep; rw [if_pos hb]]
      exact ih st hflag hseg hty
    · set seg : Segment :=
        { type := if st.1 then SegType.user else SegType.ai,
          speaker := if st.1 then ("User").data else ("Assistant").data,
          content := jsTrim b } with hsegdef
      simp only [show altStep st b = (!st.1, st.2 ++ [seg]) from by unfold altStep; rw [if_neg hb]]
      apply ih
      · rw [hflag, ← decide_not]
        apply decide_eq_decide.mpr
        simp only [List.length_append, List.length_cons, List.length_nil]
        omega
      · intro s hs
        rw [List.mem_append] at hs
        cases hs with
        | inl h => exact hseg s h
        | inr h =>
          rw [List.mem_singleton] at h
          subst h
          exact ⟨jsTrim_idem b, hb⟩
      · intro i hi
        simp only [List.length_append, List.length_cons, List.length_nil] at hi
        by_cases hilt : i < st.2.length
        · rw [List.getD_append _ _ _ _ hilt]
          exact hty i hilt
        · have hieq : i = st.2.length := by omega
          rw [List.getD_append_right _ _ _ _ (by omega), hieq]
          simp only [Nat.sub_self, List.getD_cons_zero]
          rw [hflag]
          by_cases hpar : st.2.length % 2 = 0
          · simp [hpar]
          · simp [hpar]

/-- The output of `parseByAlternatingTurns`: trimmed non-empty contents,
kinds alternating user-first. -/
theorem parseByAlternatingTurns_inv (text : JSString) :
    (∀ seg ∈ parseByAlternatingTurns text,
      jsTrim seg.content = seg.content ∧ seg.content ≠ []) ∧
    (∀ i, i < (parseByAlternatingTurns text).length →
      ((parseByAlternatingTurns text).getD i initSeg).type =
        (if i % 2 = 0 then SegType.user else SegType.ai)) := by
  simp only [parseByAlternatingTurns]
  split
  · constructor
    · intro seg hseg
      simp at hseg
    · intro i hi
      simp at hi
  · have h := altStep_foldl_inv (splitBlocksRaw text) (true, [])
      (by simp) (by simp) (by simp)
    exact ⟨h.2.1, h.2.2⟩

/-- Shared pipeline fact: when the label strategy is inconclusive and the
alternation strategy yields more than one segment, `parseSegments` returns
exactly the alternation output. -/
theorem parseSegments_eq_alternating (text : JSString)
    (hlab : (parseByLabels text).length < 2 ∨
      (parseByLabels text).any (fun s => s.type = SegType.user || s.type = SegType.ai) = false)
    (halt : 1 < (parseByAlternatingTurns text).length) :
    parseSegments text = parseByAlternatingTurns text := by
  simp only [parseSegments]
  rw [if_pos hlab, if_pos halt, if_neg (by omega)]
  apply List.filter_eq_self.mpr
  intro seg hseg
  have h := (parseByAlternatingTurns_inv text).1 seg hseg
  simp [h.1, h.2]

/-- Claim C1 as amended: whenever the label strategy is inconclusive and
the blank-line alternation strategy produces more than one segment, the
pipeline's result is exactly `parseByAlternatingTurns text`, whose kinds
are assigned by strict alternation starting with `user` — `TurnClassifier`
and `SequenceValidator` play no part. -/
theorem C1_strict_alternation (text : JSString)
    (hlab : (parseByLabels text).length < 2 ∨
      (parseByLabels text).any (fun s => s.type = SegType.user || s.type = SegType.ai) = false)
    (halt : 1 < (parseByAlternatingTurns text).length) :
    parseSegments text = parseByAlternatingTurns text ∧
    ∀ i, i < (parseByAlternatingTurns text).length →
      ((parseByAlternatingTurns text).getD i initSeg).type =
        (if i % 2 = 0 then SegType.user else SegType.ai) := by
  constructor
  · exact parseSegments_eq_alternating text hlab halt
  · exact (parseByAlternatingTurns_inv text).2

/-- Witness for C1 (amended) at a concrete two-block text. -/
theorem C1_strict_alternation_witness :
    parseSegments (("hello\n\nworld").data) =
      parseByAlternatingTurns (("hello\n\nworld").data) ∧
    ((parseByAlternatingTurns (("hello\n\nworld").data)).getD 0 initSeg).type = SegType.user ∧
    ((parseByAlternatingTurns (("hello\n\nworld").data)).getD 1 initSeg).type = SegType.ai := by
  have h := C1_strict_alternation (("hello\n\nworld").data) (Or.inl (by decide)) (by decide)
  refine ⟨h.1, ?_, ?_⟩
  · have := h.2 0 (by decide)
    simpa using this
  · have := h.2 1 (by decide)
    simpa using this

/-! ### C10: uncertain results form a prefix after validation -/

/-- `getD` after `set` at a different index. -/
theorem getD_set_ne {α : Type} (l : List α) {i j : ℕ} (h : i ≠ j) (a d : α) :
    (l.set i a).getD j d = l.getD j d := by
  simp [List.getD_eq_getElem?_getD, List.getElem?_set_ne h]

/-- `getD` after `set` at the same (in-range) index. -/
theorem getD_set_self {α : Type} (l : List α) {i : ℕ} (h : i < l.length) (a d : α) :
    (l.set i a).getD i d = a := by
  simp [List.getD_eq_getElem?_getD, List.getElem?_set_self h]

/-- Out-of-range `getD` returns the default. -/
theorem getD_of_le {α : Type} (l : List α) {i : ℕ} (h : l.length ≤ i) (d : α) :
    l.getD i d = d := by
  simp [List.getD_eq_getElem?_getD, List.getElem?_eq_none h]

/-- A definitely-classified index is in range (out-of-range reads give the
default, whose speaker is `uncertain`). -/
theorem spkAt_lt_of_ne (rs : List ClassificationResult) (i : ℕ)
    (h : ¬ spkAt rs i = Speaker.uncertain) : i < rs.length := by
  by_contra hlen
  apply h
  unfold spkAt
  rw [getD_of_le _ (by omega)]
  rfl

/-- Rule 1 preserves the list length. -/
theorem rule1_length (ts : List JSString) (rs : List ClassificationResult) (i : ℕ) :
    (rule1 ts rs i).length = rs.length := by
  unfold rule1
  split
  · exact List.length_set ..
  · rfl

/-- Rule 2 preserves the list length. -/
theorem rule2_length (rs : List ClassificationResult) (i : ℕ) :
    (rule2 rs i).length = rs.length := by
  unfold rule2
  split
  · exact List.length_set ..
  · rfl

/-- One validator step preserves the list length. -/
theorem valStep_length (ts : List JSString) (rs : List ClassificationResult) (i : ℕ) :
    (valStep ts rs i).length = rs.length := by
  unfold valStep
  rw [rule2_length, rule1_length]

/-- Rule 1 at loop index `i` only touches index `i-1`. -/
theorem spkAt_rule1_ne (ts : List JSString) (rs : List ClassificationResult) (i m : ℕ)
    (h : m ≠ i - 1) : spkAt (rule1 ts rs i) m = spkAt rs m := by
  unfold rule1
  split
  · unfold spkAt
    rw [getD_set_ne _ (fun hh => h hh.symm)]
  · rfl

/-- If index `i-1` is still uncertain after rule 1 ran at loop index `i`,
it was already uncertain before (the rule writes `user`, never
`uncertain`). -/
theorem spkAt_rule1_unc (ts : List JSString) (rs : List ClassificationResult) (i : ℕ)
    (h : spkAt (rule1 ts rs i) (i-1) = Speaker.uncertain) :
    spkAt rs (i-1) = Speaker.uncertain := by
  unfold rule1 at h
  split at h
  next hc =>
    have hilen : i < rs.length := spkAt_lt_of_ne rs i (by rw [hc.2.1]; simp)
    unfold spkAt at h
    rw [getD_set_self _ (by omega)] at h
    simp at h
  next => exact h

/-- Rule 2 at loop index `i` only touches index `i`. -/
theorem spkAt_rule2_ne (rs : List ClassificationResult) (i m : ℕ) (h : m ≠ i) :
    spkAt (rule2 rs i) m = spkAt rs m := by
  unfold rule2
  split
  · unfold spkAt
    rw [getD_set_ne _ (fun hh => h hh.symm)]
  · rfl

/-- If an in-range index `i` is still uncertain after rule 2 ran at loop
index `i`, the rule did not fire: the index was uncertain before, and
either `i = 0` or the (current) predecessor was itself uncertain. -/
theorem spkAt_rule2_unc (rs : List ClassificationResult) (i : ℕ) (hi : i < rs.length)
    (h : spkAt (rule2 rs i) i = Speaker.uncertain) :
    spkAt rs i = Speaker.uncertain ∧ (i = 0 ∨ spkAt rs (i-1) = Speaker.uncertain) := by
  unfold rule2 at h
  split at h
  next hc =>
    unfold spkAt at h
    rw [getD_set_self _ hi] at h
    simp only [] at h
    split at h <;> simp at h
  next hc =>
    refine ⟨h, ?_⟩
    rcases Nat.eq_zero_or_pos i with h0 | hpos
    · exact Or.inl h0
    · right
      have hnd : ¬(spkAt rs (i-1) = Speaker.ai ∨ spkAt rs (i-1) = Speaker.user) :=
        fun hd => hc ⟨h, hpos, hd⟩
      cases hsp : spkAt rs (i-1) with
      | ai => exact absurd (Or.inl hsp) hnd
      | user => exact absurd (Or.inr hsp) hnd
      | uncertain => rfl

/-- An index below the current loop index that is uncertain after the step
was already uncertain before it. -/
theorem spkAt_valStep_unc_lt (ts : List JSString) (s : List ClassificationResult)
    (k i : ℕ) (hik : i < k)
    (h : spkAt (valStep ts s k) i = Speaker.uncertain) :
    spkAt s i = Speaker.uncertain := by
  unfold valStep at h
  rw [spkAt_rule2_ne _ _ _ (by omega)] at h
  by_cases him : i = k - 1
  · subst him
    exact spkAt_rule1_unc ts s k h
  · rwa [spkAt_rule1_ne _ _ _ _ him] at h

/-- An uncertain index below the current loop index stays uncertain
through the step (rule 1 only rewrites `ai` turns, rule 2 only index `k`). -/
theorem spkAt_valStep_unc_preserved (ts : List JSString) (s : List ClassificationResult)
    (k m : ℕ) (hmk : m < k)
    (h : spkAt s m = Speaker.uncertain) :
    spkAt (valStep ts s k) m = Speaker.uncertain := by
  unfold valStep
  rw [spkAt_rule2_ne _ _ _ (by omega)]
  by_cases him : m = k - 1
  · unfold rule1
    split
    next hc =>
      exfalso
      rw [← him] at hc
      rw [h] at hc
      exact Speaker.noConfusion hc.2.2.1
    next => exact h
  · rw [spkAt_rule1_ne _ _ _ _ him]
    exact h

/-- Claim C10: after the validator's single forward pass, every result
still classified uncertain is either at index 0 or immediately preceded by
an uncertain result; equivalently, the uncertain results form a (possibly
empty) prefix of the result list. -/
theorem C10_uncertain_pfx (rs : List ClassificationResult) (ts : List JSString) :
    (∀ i, 0 < i → i < rs.length →
      spkAt (validateSequence rs ts) i = Speaker.uncertain →
      spkAt (validateSequence rs ts) (i-1) = Speaker.uncertain) ∧
    (∀ i j, i < rs.length → j ≤ i →
      spkAt (validateSequence rs ts) i = Speaker.uncertain →
      spkAt (validateSequence rs ts) j = Speaker.uncertain) := by
  have main : ∀ k, k ≤ rs.length →
      ((List.range k).foldl (valStep ts) rs).length = rs.length ∧
      (∀ i, 0 < i → i < k →
        spkAt ((List.range k).foldl (valStep ts) rs) i = Speaker.uncertain →
        spkAt ((List.range k).foldl (valStep ts) rs) (i-1) = Speaker.uncertain) := by
    intro k
    induction k with
    | zero => exact fun _ => ⟨rfl, fun i h1 h2 => by omega⟩
    | succ k ih =>
      intro hk
      obtain ⟨hlen, hP⟩ := ih (by omega)
      have hfold : (List.range (k+1)).foldl (valStep ts) rs =
          valStep ts ((List.range k).foldl (valStep ts) rs) k := by
        rw [List.range_succ, List.foldl_append]
        rfl
      rw [hfold]
      refine ⟨by rw [valStep_length, hlen], ?_⟩
      set s := (List.range k).foldl (valStep ts) rs with hs
      intro i hi0 hik hunc
      by_cases hik' : i < k
      · have h1 : spkAt s i = Speaker.uncertain := spkAt_valStep_unc_lt ts s k i hik' hunc
        have h2 : spkAt s (i-1) = Speaker.uncertain := hP i hi0 hik' h1
        exact spkAt_valStep_unc_preserved ts s k (i-1) (by omega) h2
      · have hik2 : i = k := by omega
        subst hik2
        unfold valStep at hunc ⊢
        have hklen : i < (rule1 ts s i).length := by
          rw [rule1_length, hlen]
          omega
        have h2 := spkAt_rule2_unc (rule1 ts s i) i hklen hunc
        rcases h2.2 with h0 | hprev
        · omega
        · rwa [spkAt_rule2_ne _ _ _ (by omega)]
  have hadj := (main rs.length (le_refl _)).2
  have hval : validateSequence rs ts = (List.range rs.length).foldl (valStep ts) rs := rfl
  constructor
  · intro i hi0 hilen
    rw [hval]
    exact hadj i hi0 hilen
  · have hpre : ∀ i, i < rs.length → ∀ j, j ≤ i →
        spkAt (validateSequence rs ts) i = Speaker.uncertain →
        spkAt (validateSequence rs ts) j = Speaker.uncertain := by
      intro i
      induction i with
      | zero =>
        intro _ j hj hu
        have : j = 0 := by omega
        subst this
        exact hu
      | succ n ihn =>
        intro hlen j hj hu
        by_cases hjn : j = n + 1
        · subst hjn
          exact hu
        · have h1 : spkAt (validateSequence rs ts) n = Speaker.uncertain := by
            have := hadj (n+1) (by omega) hlen
            rw [hval]
            simpa using this (by rw [← hval]; exact hu)
          exact ihn (by omega) j (by omega) h1
    exact fun i j h1 h2 h3 => hpre i h1 j h2 h3

/-- Witness for C10 at a concrete two-element conversation whose results
both stay uncertain. -/
theorem C10_uncertain_pfx_witness :
    spkAt (validateSequence [uncResult, uncResult] [("a").data, ("b").data]) 0 =
      Speaker.uncertain :=
  (C10_uncertain_pfx [uncResult, uncResult] [("a").data, ("b").data]).1
    1 (by decide) (by decide) (by decide)

/-! ### Supporting lemmas for the reconstruction round-trip -/

/-- One-sided unfolding of `splitLines` on a cons cell. -/
theorem splitLines_cons (c : Char) (y : JSString) :
    splitLines (c :: y) =
      if c = '\n' then [] :: splitLines y
      else
        match splitLines y with
        | [] => [[c]]
        | l :: ls => (c :: l) :: ls := by
  conv_lhs => unfold splitLines

/-- Lines produced by `splitLines` contain no newline. -/
theorem splitLines_no_nl (s : JSString) : ∀ l ∈ splitLines s, '\n' ∉ l := by
  induction s with
  | nil =>
    intro l hl
    simp [splitLines] at hl
    simp [hl]
  | cons c rest ih =>
    intro l hl
    rw [splitLines_cons] at hl
    by_cases hc : c = '\n'
    · rw [if_pos hc] at hl
      rcases List.mem_cons.mp hl with h | h
      · simp [h]
      · exact ih l h
    · rw [if_neg hc] at hl
      cases hsp : splitLines rest with
      | nil => exact absurd hsp (splitLines_ne_nil rest)
      | cons l0 ls =>
        rw [hsp] at hl
        rcases List.mem_cons.mp hl with h | h
        · subst h
          intro hmem
          rcases List.mem_cons.mp hmem with h' | h'
          · exact hc h'.symm
          · exact ih l0 (by rw [hsp]; exact List.mem_cons_self l0 ls) h'
        · exact ih l (by rw [hsp]; exact List.mem_cons_of_mem l0 h)

/-- `splitLines` of a newline-free string is that single line. -/
theorem splitLines_single (l : JSString) (h : '\n' ∉ l) : splitLines l = [l] := by
  induction l with
  | nil => rfl
  | cons c cs ih =>
    rw [splitLines_cons,
        if_neg (by intro hc; exact h (by rw [hc]; exact List.mem_cons_self _ _))]
    rw [ih (fun hm => h (List.mem_cons_of_mem c hm))]

/-- `splitLines` distributes over a newline separator. -/
theorem splitLines_append_nl (x y : JSString) :
    splitLines (x ++ '\n' :: y) = splitLines x ++ splitLines y := by
  induction x with
  | nil =>
    rw [List.nil_append, splitLines_cons, if_pos rfl]
    rfl
  | cons c cs ih =>
    rw [List.cons_append, splitLines_cons, splitLines_cons]
    by_cases hc : c = '\n'
    · rw [if_pos hc, if_pos hc, ih]
      rfl
    · rw [if_neg hc, if_neg hc, ih]
      cases hsp : splitLines cs with
      | nil => exact absurd hsp (splitLines_ne_nil cs)
      | cons l0 ls => simp

/-- Joining the lines of `s` with single newlines recovers `s`. -/
theorem lineJoin_splitLines (s : JSString) : lineJoin (splitLines s) = s := by
  induction s with
  | nil => rfl
  | cons c rest ih =>
    rw [splitLines_cons]
    by_cases hc : c = '\n'
    · rw [if_pos hc]
      cases hsp : splitLines rest with
      | nil => exact absurd hsp (splitLines_ne_nil rest)
      | cons l0 ls =>
        rw [hsp] at ih
        subst hc
        simp only [lineJoin, List.intersperse] at ih ⊢
        simpa using ih
    · rw [if_neg hc]
      cases hsp : splitLines rest with
      | nil => exact absurd hsp (splitLines_ne_nil rest)
      | cons l0 ls =>
        rw [hsp] at ih
        cases ls with
        | nil => simpa [lineJoin] using ih
        | cons l1 ls' =>
          simp only [lineJoin, List.intersperse_cons_cons, List.flatten_cons] at ih ⊢
          rw [List.cons_append, ih]

/-- Members of `dropWhile` are members of the original list. -/
theorem mem_of_mem_dropWhile {α : Type} (p : α → Bool) (l : List α) (x : α)
    (h : x ∈ l.dropWhile p) : x ∈ l := by
  induction l with
  | nil => simp [List.dropWhile] at h
  | cons c cs ih =>
    by_cases hc : p c = true
    · rw [List.dropWhile_cons_of_pos hc] at h
      exact List.mem_cons_of_mem c (ih h)
    · rwa [List.dropWhile_cons_of_neg hc] at h

/-- Members of `jsTrim` are members of the original string. -/
theorem mem_of_mem_jsTrim (s : JSString) (x : Char) (h : x ∈ jsTrim s) : x ∈ s := by
  unfold jsTrim jsTrimRight jsTrimLeft at h
  rw [List.mem_reverse] at h
  have h2 := mem_of_mem_dropWhile _ _ _ h
  rw [List.mem_reverse] at h2
  exact mem_of_mem_dropWhile _ _ _ h2

/-- `jsTrimRight` is empty exactly on all-whitespace strings. -/
theorem jsTrimRight_eq_nil_iff (z : JSString) :
    jsTrimRight z = [] ↔ ∀ c ∈ z, jsIsSpace c = true := by
  unfold jsTrimRight
  rw [List.reverse_eq_nil_iff, List.dropWhile_eq_nil_iff]
  constructor
  · intro h c hc
    exact h c (List.mem_reverse.mpr hc)
  · intro h c hc
    exact h c (List.mem_reverse.mp hc)

/-- `jsTrim` is empty exactly on all-whitespace strings. -/
theorem jsTrim_eq_nil_iff (s : JSString) :
    jsTrim s = [] ↔ ∀ c ∈ s, jsIsSpace c = true := by
  unfold jsTrim jsTrimLeft
  rw [jsTrimRight_eq_nil_iff]
  constructor
  · intro h c hc
    rcases List.mem_append.mp
        ((List.takeWhile_append_dropWhile (p := jsIsSpace) (l := s)) ▸ hc) with hm | hm
    · exact List.mem_takeWhile_imp hm
    · exact h c hm
  · intro h c hc
    exact h c (mem_of_mem_dropWhile _ _ _ hc)

/-- A non-blank string left-trims to a non-blank (hence non-empty) string. -/
theorem jsTrimLeft_nonblank (l : JSString) (h : isBlankLine l = false) :
    isBlankLine (jsTrimLeft l) = false ∧ jsTrimLeft l ≠ [] := by
  unfold isBlankLine at h ⊢
  have hnot : ¬ ∀ c ∈ l, jsIsSpace c = true := by
    intro hall
    rw [List.all_eq_true.mpr hall] at h
    exact Bool.noConfusion h
  have hd : ¬ ∀ c ∈ jsTrimLeft l, jsIsSpace c = true := by
    intro hall
    apply hnot
    intro c hc
    rcases List.mem_append.mp
        ((List.takeWhile_append_dropWhile (p := jsIsSpace) (l := l)) ▸ hc) with hm | hm
    · exact List.mem_takeWhile_imp hm
    · exact hall c hm
  constructor
  · rw [Bool.eq_false_iff]
    intro hall
    exact hd (List.all_eq_true.mp hall)
  · intro hnil
    exact hd (by rw [hnil]; intro c hc; simp at hc)

/-- A non-blank string right-trims to a non-blank (hence non-empty) string. -/
theorem jsTrimRight_nonblank (l : JSString) (h : isBlankLine l = false) :
    isBlankLine (jsTrimRight l) = false ∧ jsTrimRight l ≠ [] := by
  unfold isBlankLine at h ⊢
  have hnot : ¬ ∀ c ∈ l, jsIsSpace c = true := by
    intro hall
    rw [List.all_eq_true.mpr hall] at h
    exact Bool.noConfusion h
  have hd : ¬ ∀ c ∈ jsTrimRight l, jsIsSpace c = true := by
    intro hall
    apply hnot
    intro c hc
    have hc' : c ∈ l.reverse.takeWhile jsIsSpace ++ l.reverse.dropWhile jsIsSpace := by
      rw [List.takeWhile_append_dropWhile]
      exact List.mem_reverse.mpr hc
    rcases List.mem_append.mp hc' with hm | hm
    · exact List.mem_takeWhile_imp hm
    · refine hall c ?_
      unfold jsTrimRight
      rw [List.mem_reverse]
      exact hm
  constructor
  · rw [Bool.eq_false_iff]
    intro hall
    exact hd (List.all_eq_true.mp hall)
  · intro hnil
    exact hd (by rw [hnil]; intro c hc; simp at hc)

/-- `jsTrimRight` over an append. -/
theorem jsTrimRight_append_eq (y z : JSString) :
    jsTrimRight (y ++ z) =
      if jsTrimRight z = [] then jsTrimRight y else y ++ jsTrimRight z := by
  unfold jsTrimRight
  rw [List.reverse_append, dropWhile_append_eq]
  by_cases hz : z.reverse.dropWhile jsIsSpace = []
  · rw [if_pos hz, if_pos (by rw [hz]; rfl)]
  · rw [if_neg hz, if_neg (by
      intro hx
      exact hz (by rwa [List.reverse_eq_nil_iff] at hx))]
    rw [List.reverse_append, List.reverse_reverse]

/-- Left-trimming a string that starts with a non-blank line trims only
inside that first part. -/
theorem jsTrimLeft_append_of_nonblank (x y : JSString) (h : isBlankLine x = false) :
    jsTrimLeft (x ++ y) = jsTrimLeft x ++ y := by
  unfold jsTrimLeft
  rw [dropWhile_append_eq, if_neg]
  exact (jsTrimLeft_nonblank x h).2

/-- `dropWhile` never lengthens a list. -/
theorem dropWhile_length_le {α : Type} (p : α → Bool) (l : List α) :
    (l.dropWhile p).length ≤ l.length := by
  induction l with
  | nil => simp [List.dropWhile]
  | cons a l ih =>
    by_cases ha : p a = true
    · rw [List.dropWhile_cons_of_pos ha]
      exact Nat.le_succ_of_le ih
    · rw [List.dropWhile_cons_of_neg ha]

/-- A fully trimmed string is already left-trimmed. -/
theorem jsTrimLeft_of_trimmed (c : JSString) (h : jsTrim c = c) : jsTrimLeft c = c := by
  have h1 : (jsTrimLeft c).length ≤ c.length := dropWhile_length_le _ _
  have h2 : (jsTrimRight (jsTrimLeft c)).length ≤ (jsTrimLeft c).length := by
    unfold jsTrimRight
    rw [List.length_reverse]
    calc ((jsTrimLeft c).reverse.dropWhile jsIsSpace).length
        ≤ (jsTrimLeft c).reverse.length := dropWhile_length_le _ _
      _ = (jsTrimLeft c).length := List.length_reverse _
  have h3 : (jsTrim c).length = c.length := by rw [h]
  rw [jsTrim] at h3
  have hlen : (jsTrimLeft c).length = c.length := by omega
  unfold jsTrimLeft at hlen ⊢
  have := List.takeWhile_append_dropWhile (p := jsIsSpace) (l := c)
  have htk : (c.takeWhile jsIsSpace).length = 0 := by
    have hlen2 := congrArg List.length this
    rw [List.length_append] at hlen2
    omega
  rw [List.length_eq_zero] at htk
  conv_rhs => rw [← this]
  rw [htk, List.nil_append]

/-- A fully trimmed string is already right-trimmed. -/
theorem jsTrimRight_of_trimmed (c : JSString) (h : jsTrim c = c) : jsTrimRight c = c := by
  have hl := jsTrimLeft_of_trimmed c h
  calc jsTrimRight c = jsTrimRight (jsTrimLeft c) := by rw [hl]
    _ = jsTrim c := rfl
    _ = c := h

/-- A trimmed non-empty string is non-blank. -/
theorem nonblank_of_trimmed (c : JSString) (h : jsTrim c = c) (hne : c ≠ []) :
    isBlankLine c = false := by
  unfold isBlankLine
  rw [Bool.eq_false_iff]
  intro hall
  have : jsTrim c = [] := (jsTrim_eq_nil_iff c).mpr (List.all_eq_true.mp hall)
  rw [h] at this
  exact hne this

/-- A non-blank string holds a non-whitespace character. -/
theorem exists_nonspace_of_nonblank (l : JSString) (h : isBlankLine l = false) :
    ∃ c ∈ l, jsIsSpace c = false := by
  unfold isBlankLine at h
  rcases List.all_eq_false.mp h with ⟨c, hc, hcs⟩
  exact ⟨c, hc, Bool.eq_false_iff.mpr hcs⟩

/-- `lineJoin` on two or more lines. -/
theorem lineJoin_cons_cons (a b : JSString) (t : List JSString) :
    lineJoin (a :: b :: t) = a ++ '\n' :: lineJoin (b :: t) := by
  unfold lineJoin
  rw [List.intersperse_cons_cons, List.flatten_cons, List.flatten_cons]
  simp

/-- `lineJoin` of a single line. -/
theorem lineJoin_single (a : JSString) : lineJoin [a] = a := by
  simp [lineJoin]

/-- Members of `jsTrimRight` are members of the original string. -/
theorem mem_of_mem_jsTrimRight (s : JSString) (x : Char) (h : x ∈ jsTrimRight s) : x ∈ s := by
  unfold jsTrimRight at h
  rw [List.mem_reverse] at h
  have := mem_of_mem_dropWhile _ _ _ h
  rwa [List.mem_reverse] at this

/-- Right-trimming the join of non-blank newline-free lines: only the last
line is trimmed, and splitting recovers the lines. -/
theorem jsTrimRight_lineJoin (run : List JSString) (hne : run ≠ [])
    (h : ∀ l ∈ run, isBlankLine l = false ∧ '\n' ∉ l) :
    ∃ run', jsTrimRight (lineJoin run) = lineJoin run' ∧
      splitLines (lineJoin run') = run' ∧ run' ≠ [] ∧
      ∀ l' ∈ run', (∃ l ∈ run, l' = l ∨ l' = jsTrimRight l) ∧
        isBlankLine l' = false ∧ '\n' ∉ l' := by
  induction run with
  | nil => exact absurd rfl hne
  | cons l0 rest ih =>
    cases rest with
    | nil =>
      obtain ⟨hb, hnl⟩ := h l0 (List.mem_cons_self _ _)
      refine ⟨[jsTrimRight l0], ?_, ?_, by simp, ?_⟩
      · rw [lineJoin_single, lineJoin_single]
      · rw [lineJoin_single]
        exact splitLines_single _ (fun hm => hnl (mem_of_mem_jsTrimRight _ _ hm))
      · intro l' hl'
        rw [List.mem_singleton] at hl'
        subst hl'
        exact ⟨⟨l0, List.mem_cons_self _ _, Or.inr rfl⟩,
          (jsTrimRight_nonblank l0 hb).1,
          fun hm => hnl (mem_of_mem_jsTrimRight _ _ hm)⟩
    | cons l1 t =>
      obtain ⟨hb0, hnl0⟩ := h l0 (List.mem_cons_self _ _)
      have hrest : ∀ l ∈ l1 :: t, isBlankLine l = false ∧ '\n' ∉ l :=
        fun l hl => h l (List.mem_cons_of_mem _ hl)
      obtain ⟨run', hjr, hsl, hne', hmem⟩ := ih (by simp) hrest
      have hJne : jsTrimRight (lineJoin (l1 :: t)) ≠ [] := by
        intro hnil
        rw [jsTrimRight_eq_nil_iff] at hnil
        obtain ⟨c, hc, hcs⟩ :=
          exists_nonspace_of_nonblank l1 (hrest l1 (List.mem_cons_self _ _)).1
        have hcJ : c ∈ lineJoin (l1 :: t) := by
          cases t with
          | nil => rwa [lineJoin_single]
          | cons l2 t' =>
            rw [lineJoin_cons_cons]
            exact List.mem_append.mpr (Or.inl hc)
        rw [hnil c hcJ] at hcs
        exact Bool.noConfusion hcs
      refine ⟨l0 :: run', ?_, ?_, by simp, ?_⟩
      · rw [lineJoin_cons_cons]
        have hshape : l0 ++ '\n' :: lineJoin (l1 :: t) =
            (l0 ++ ['\n']) ++ lineJoin (l1 :: t) := by simp
        rw [hshape, jsTrimRight_append_eq, if_neg hJne, hjr]
        cases run' with
        | nil => exact absurd rfl hne'
        | cons a as =>
          rw [lineJoin_cons_cons]
          simp
      · cases run' with
        | nil => exact absurd rfl hne'
        | cons a as =>
          rw [lineJoin_cons_cons, splitLines_append_nl, splitLines_single l0 hnl0, hsl]
          rfl
      · intro l' hl'
        rcases List.mem_cons.mp hl' with h0 | hmem'
        · exact ⟨⟨l0, List.mem_cons_self _ _, Or.inl h0⟩,
            by rw [h0]; exact hb0, by rw [h0]; exact hnl0⟩
        · obtain ⟨⟨l, hl, hv⟩, hb', hnl'⟩ := hmem l' hmem'
          exact ⟨⟨l, List.mem_cons_of_mem _ hl, hv⟩, hb', hnl'⟩

/-- Trimming the join of non-blank newline-free lines: the result is
non-empty and every resulting line is an edge-trimmed variant of an
original line, with none blank. -/
theorem jsTrim_lineJoin_lines (run : List JSString) (hne : run ≠ [])
    (h : ∀ l ∈ run, isBlankLine l = false ∧ '\n' ∉ l) :
    jsTrim (lineJoin run) ≠ [] ∧
    ∀ l' ∈ splitLines (jsTrim (lineJoin run)),
      (∃ l ∈ run, l' = l ∨ l' = jsTrimLeft l ∨ l' = jsTrimRight l ∨ l' = jsTrim l) ∧
      isBlankLine l' = false := by
  cases run with
  | nil => exact absurd rfl hne
  | cons l0 rest =>
    obtain ⟨hb0, hnl0⟩ := h l0 (List.mem_cons_self _ _)
    have hleft : jsTrimLeft (lineJoin (l0 :: rest)) = lineJoin (jsTrimLeft l0 :: rest) := by
      cases rest with
      | nil => rw [lineJoin_single, lineJoin_single]
      | cons l1 t =>
        rw [lineJoin_cons_cons, lineJoin_cons_cons]
        exact jsTrimLeft_append_of_nonblank _ _ hb0
    have hrun' : ∀ l ∈ jsTrimLeft l0 :: rest, isBlankLine l = false ∧ '\n' ∉ l := by
      intro l hl
      rcases List.mem_cons.mp hl with h0 | hmem
      · subst h0
        exact ⟨(jsTrimLeft_nonblank l0 hb0).1,
          fun hm => hnl0 (mem_of_mem_dropWhile _ _ _ hm)⟩
      · exact h l (List.mem_cons_of_mem _ hmem)
    obtain ⟨run', hjr, hsl, hne', hmem⟩ :=
      jsTrimRight_lineJoin (jsTrimLeft l0 :: rest) (by simp) hrun'
    have htrim : jsTrim (lineJoin (l0 :: rest)) = lineJoin run' := by
      rw [jsTrim, hleft, hjr]
    constructor
    · rw [htrim]
      cases run' with
      | nil => exact absurd rfl hne'
      | cons a as =>
        obtain ⟨-, hba, -⟩ := hmem a (List.mem_cons_self _ _)
        have hane : a ≠ [] := by
          intro h0
          rw [h0] at hba
          exact Bool.noConfusion hba
        cases as with
        | nil =>
          rw [lineJoin_single]
          exact hane
        | cons b bs =>
          rw [lineJoin_cons_cons]
          intro h0
          rw [List.append_eq_nil] at h0
          exact hane h0.1
    · rw [htrim, hsl]
      intro l' hl'
      obtain ⟨⟨l, hl, hv⟩, hb', -⟩ := hmem l' hl'
      rcases List.mem_cons.mp hl with h0 | hmem2
      · subst h0
        refine ⟨⟨l0, List.mem_cons_self _ _, ?_⟩, hb'⟩
        rcases hv with h1 | h1
        · exact Or.inr (Or.inl h1)
        · exact Or.inr (Or.inr (Or.inr h1))
      · refine ⟨⟨l, List.mem_cons_of_mem _ hmem2, ?_⟩, hb'⟩
        rcases hv with h1 | h1
        · exact Or.inl h1
        · exact Or.inr (Or.inr (Or.inl h1))

/-- One-sided unfolding of `gbAux` on nil. -/
theorem gbAux_nil (cur : List JSString) :
    gbAux cur [] = if cur = [] then [] else [cur.reverse] := by
  conv_lhs => unfold gbAux

/-- One-sided unfolding of `gbAux` on a cons cell. -/
theorem gbAux_cons (cur : List JSString) (l : JSString) (ls : List JSString) :
    gbAux cur (l :: ls) =
      if isBlankLine l then
        if cur = [] then gbAux [] ls else cur.reverse :: gbAux [] ls
      else gbAux (l :: cur) ls := by
  conv_lhs => unfold gbAux

/-- `gbAux` across a run of non-blank lines followed by a blank line
closes exactly one block. -/
theorem gbAux_run_blank (run : List JSString) :
    ∀ (cur rest : List JSString), (cur = [] → run ≠ []) →
    (∀ l ∈ run, isBlankLine l = false) →
    gbAux cur (run ++ [] :: rest) = (cur.reverse ++ run) :: gbAux [] rest := by
  induction run with
  | nil =>
    intro cur rest hne hnb
    rw [List.nil_append, gbAux_cons, if_pos (show isBlankLine [] = true from rfl)]
    have hcur : ¬ cur = [] := fun h0 => (hne h0) rfl
    rw [if_neg hcur, List.append_nil]
  | cons l run' ih =>
    intro cur rest hne hnb
    rw [List.cons_append, gbAux_cons]
    rw [if_neg (by rw [hnb l (List.mem_cons_self _ _)]; exact Bool.false_ne_true)]
    rw [ih (l :: cur) rest (by simp) (fun x hx => hnb x (List.mem_cons_of_mem _ hx))]
    simp

/-- `gbAux` on a trailing run of non-blank lines closes the final block. -/
theorem gbAux_run_end (run : List JSString) :
    ∀ (cur : List JSString), (cur = [] → run ≠ []) →
    (∀ l ∈ run, isBlankLine l = false) →
    gbAux cur run = [cur.reverse ++ run] := by
  induction run with
  | nil =>
    intro cur hne hnb
    rw [gbAux_nil]
    have hcur : ¬ cur = [] := fun h0 => (hne h0) rfl
    rw [if_neg hcur, List.append_nil]
  | cons l run' ih =>
    intro cur hne hnb
    rw [gbAux_cons]
    rw [if_neg (by rw [hnb l (List.mem_cons_self _ _)]; exact Bool.false_ne_true)]
    rw [ih (l :: cur) (by simp) (fun x hx => hnb x (List.mem_cons_of_mem _ hx))]
    simp

/-- Trimming the reconstruction concatenation: one block content then a
double newline then the rest, recursively. -/
theorem jsTrim_reconJoin (cs : List JSString)
    (h : ∀ c ∈ cs, jsTrim c = c ∧ c ≠ []) :
    (cs = [] → jsTrim (reconJoin cs) = []) ∧
    (∀ c cs', cs = c :: cs' →
      jsTrim (reconJoin cs) =
        (if cs' = [] then c else c ++ '\n' :: '\n' :: jsTrim (reconJoin cs'))) := by
  constructor
  · intro h0
    subst h0
    rfl
  · intro c cs' h0
    subst h0
    obtain ⟨hc, hcne⟩ := h c (List.mem_cons_self _ _)
    have hcnb : isBlankLine c = false := nonblank_of_trimmed c hc hcne
    have hshape : reconJoin (c :: cs') = c ++ ('\n' :: '\n' :: reconJoin cs') := by
      simp [reconJoin]
    have hleft : jsTrimLeft (reconJoin (c :: cs')) = reconJoin (c :: cs') := by
      rw [hshape, jsTrimLeft_append_of_nonblank _ _ hcnb, jsTrimLeft_of_trimmed c hc]
    cases cs' with
    | nil =>
      rw [if_pos rfl]
      rw [jsTrim, hleft, hshape]
      have hsh2 : c ++ ('\n' :: '\n' :: reconJoin []) = c ++ ['\n', '\n'] := rfl
      rw [hsh2, jsTrimRight_append_eq, if_pos (by decide), jsTrimRight_of_trimmed c hc]
    | cons c1 cs'' =>
      rw [if_neg (by simp)]
      obtain ⟨hc1, hc1ne⟩ := h c1 (List.mem_cons_of_mem _ (List.mem_cons_self _ _))
      have hc1nb : isBlankLine c1 = false := nonblank_of_trimmed c1 hc1 hc1ne
      have hJne : jsTrimRight (reconJoin (c1 :: cs'')) ≠ [] := by
        intro hnil
        rw [jsTrimRight_eq_nil_iff] at hnil
        obtain ⟨x, hx, hxs⟩ := exists_nonspace_of_nonblank c1 hc1nb
        have hxJ : x ∈ reconJoin (c1 :: cs'') := by
          have : reconJoin (c1 :: cs'') = c1 ++ ('\n' :: '\n' :: reconJoin cs'') := by
            simp [reconJoin]
          rw [this]
          exact List.mem_append.mpr (Or.inl hx)
        rw [hnil x hxJ] at hxs
        exact Bool.noConfusion hxs
      have hleft1 : jsTrimLeft (reconJoin (c1 :: cs'')) = reconJoin (c1 :: cs'') := by
        have : reconJoin (c1 :: cs'') = c1 ++ ('\n' :: '\n' :: reconJoin cs'') := by
          simp [reconJoin]
        rw [this, jsTrimLeft_append_of_nonblank _ _ hc1nb, jsTrimLeft_of_trimmed c1 hc1]
      rw [jsTrim, hleft, hshape]
      have hsh3 : c ++ ('\n' :: '\n' :: reconJoin (c1 :: cs'')) =
          (c ++ ['\n', '\n']) ++ reconJoin (c1 :: cs'') := by simp
      rw [hsh3, jsTrimRight_append_eq, if_neg hJne]
      have : jsTrim (reconJoin (c1 :: cs'')) = jsTrimRight (reconJoin (c1 :: cs'')) := by
        rw [jsTrim, hleft1]
      rw [← this]
      simp

/-- Block structure of a trimmed reconstruction: grouping the lines of
`jsTrim (reconJoin cs)` yields exactly the line lists of the contents
`cs`, and every line is blank or a line of some content. -/
theorem groupBlocks_reconJoin (cs : List JSString)
    (h : ∀ c ∈ cs, jsTrim c = c ∧ c ≠ [] ∧
      ∀ l ∈ splitLines c, isBlankLine l = false) :
    groupBlocks (splitLines (jsTrim (reconJoin cs))) = cs.map splitLines ∧
    (∀ l ∈ splitLines (jsTrim (reconJoin cs)), l = [] ∨ ∃ c ∈ cs, l ∈ splitLines c) := by
  induction cs with
  | nil =>
    constructor
    · rfl
    · intro l hl
      left
      simpa [reconJoin, jsTrim, jsTrimLeft, jsTrimRight, splitLines] using hl
  | cons c cs' ih =>
    obtain ⟨hc, hcne, hcl⟩ := h c (List.mem_cons_self _ _)
    have htr := (jsTrim_reconJoin (c :: cs')
      (fun x hx => ⟨(h x hx).1, (h x hx).2.1⟩)).2 c cs' rfl
    cases cs' with
    | nil =>
      rw [if_pos rfl] at htr
      rw [htr]
      constructor
      · rw [show groupBlocks (splitLines c) = gbAux [] (splitLines c) from rfl]
        rw [gbAux_run_end (splitLines c) [] (fun _ => splitLines_ne_nil c) hcl]
        rfl
      · intro l hl
        exact Or.inr ⟨c, List.mem_cons_self _ _, hl⟩
    | cons c1 cs'' =>
      rw [if_neg (by simp)] at htr
      obtain ⟨ihg, ihm⟩ := ih (fun x hx => h x (List.mem_cons_of_mem _ hx))
      rw [htr]
      have hsplit : splitLines (c ++ '\n' :: '\n' :: jsTrim (reconJoin (c1 :: cs''))) =
          splitLines c ++ [] :: splitLines (jsTrim (reconJoin (c1 :: cs''))) := by
        rw [splitLines_append_nl, splitLines_cons, if_pos rfl]
      rw [hsplit]
      constructor
      · rw [show groupBlocks (splitLines c ++ [] ::
            splitLines (jsTrim (reconJoin (c1 :: cs'')))) =
          gbAux [] (splitLines c ++ [] ::
            splitLines (jsTrim (reconJoin (c1 :: cs'')))) from rfl]
        rw [gbAux_run_blank (splitLines c) [] _ (fun _ => splitLines_ne_nil c) hcl]
        simp only [List.reverse_nil, List.nil_append]
        rw [show gbAux [] (splitLines (jsTrim (reconJoin (c1 :: cs'')))) =
          groupBlocks (splitLines (jsTrim (reconJoin (c1 :: cs'')))) from rfl, ihg]
        rfl
      · intro l hl
        rcases List.mem_append.mp hl with hm | hm
        · exact Or.inr ⟨c, List.mem_cons_self _ _, hm⟩
        · rcases List.mem_cons.mp hm with h0 | hm2
          · exact Or.inl h0
          · rcases ihm l hm2 with h0 | ⟨c', hc', hlc'⟩
            · exact Or.inl h0
            · exact Or.inr ⟨c', List.mem_cons_of_mem _ hc', hlc'⟩

/-- Invariant of `gbAux`: every emitted run is non-empty and consists of
non-blank lines taken from the accumulator or the remaining input. -/
theorem gbAux_inv (ls : List JSString) :
    ∀ (cur : List JSString), (∀ l ∈ cur, isBlankLine l = false) →
    ∀ run ∈ gbAux cur ls, run ≠ [] ∧
      ∀ l ∈ run, isBlankLine l = false ∧ (l ∈ cur ∨ l ∈ ls) := by
  induction ls with
  | nil =>
    intro cur hcur run hrun
    rw [gbAux_nil] at hrun
    by_cases h0 : cur = []
    · rw [if_pos h0] at hrun
      simp at hrun
    · rw [if_neg h0] at hrun
      rw [List.mem_singleton] at hrun
      subst hrun
      refine ⟨by simpa using h0, fun l hl => ?_⟩
      rw [List.mem_reverse] at hl
      exact ⟨hcur l hl, Or.inl hl⟩
  | cons l0 ls' ih =>
    intro cur hcur run hrun
    rw [gbAux_cons] at hrun
    by_cases hb : isBlankLine l0 = true
    · rw [if_pos hb] at hrun
      by_cases h0 : cur = []
      · rw [if_pos h0] at hrun
        obtain ⟨hne, hmem⟩ := ih [] (by simp) run hrun
        refine ⟨hne, fun l hl => ?_⟩
        obtain ⟨hnb, hm⟩ := hmem l hl
        rcases hm with hm | hm
        · simp at hm
        · exact ⟨hnb, Or.inr (List.mem_cons_of_mem _ hm)⟩
      · rw [if_neg h0] at hrun
        rcases List.mem_cons.mp hrun with hr | hr
        · subst hr
          refine ⟨by simpa using h0, fun l hl => ?_⟩
          rw [List.mem_reverse] at hl
          exact ⟨hcur l hl, Or.inl hl⟩
        · obtain ⟨hne, hmem⟩ := ih [] (by simp) run hr
          refine ⟨hne, fun l hl => ?_⟩
          obtain ⟨hnb, hm⟩ := hmem l hl
          rcases hm with hm | hm
          · simp at hm
          · exact ⟨hnb, Or.inr (List.mem_cons_of_mem _ hm)⟩
    · rw [if_neg hb] at hrun
      obtain ⟨hne, hmem⟩ := ih (l0 :: cur)
        (fun l hl => by
          rcases List.mem_cons.mp hl with h | h
          · rw [h]
            exact Bool.eq_false_iff.mpr hb
          · exact hcur l h) run hrun
      refine ⟨hne, fun l hl => ?_⟩
      obtain ⟨hnb, hm⟩ := hmem l hl
      rcases hm with hm | hm
      · rcases List.mem_cons.mp hm with h | h
        · exact ⟨hnb, Or.inr (h ▸ List.mem_cons_self _ _)⟩
        · exact ⟨hnb, Or.inl h⟩
      · exact ⟨hnb, Or.inr (List.mem_cons_of_mem _ hm)⟩

/-- Every block produced by `groupBlocks` is a non-empty run of non-blank
lines of the input. -/
theorem groupBlocks_inv (ls : List JSString) (run : List JSString)
    (hrun : run ∈ groupBlocks ls) :
    run ≠ [] ∧ ∀ l ∈ run, isBlankLine l = false ∧ l ∈ ls := by
  obtain ⟨hne, hmem⟩ := gbAux_inv ls [] (by simp) run hrun
  refine ⟨hne, fun l hl => ?_⟩
  obtain ⟨hnb, hm⟩ := hmem l hl
  rcases hm with hm | hm
  · simp at hm
  · exact ⟨hnb, hm⟩

/-- The `(content, originalPrefix)` pairs accumulated by the alternation
fold: when no block trims to empty, each block contributes its trimmed
content with an empty prefix. -/
theorem altStep_foldl_pairs (blocks : List JSString) (st : Bool × List Segment)
    (h : ∀ b ∈ blocks, jsTrim b ≠ []) :
    ((blocks.foldl altStep st).2).map (fun s => (s.content, s.opfx)) =
      (st.2.map (fun s => (s.content, s.opfx))) ++
        blocks.map (fun b => (jsTrim b, ([] : JSString))) := by
  induction blocks generalizing st with
  | nil => simp
  | cons b bs ih =>
    simp only [List.foldl_cons]
    have hb := h b (List.mem_cons_self _ _)
    rw [show altStep st b = (!st.1, st.2 ++
        [{ type := if st.1 then SegType.user else SegType.ai,
           speaker := if st.1 then ("User").data else ("Assistant").data,
           content := jsTrim b }]) from by unfold altStep; rw [if_neg hb]]
    rw [ih _ (fun x hx => h x (List.mem_cons_of_mem _ hx))]
    simp

/-- When no block trims to empty and there are at least two blocks, the
alternation output has exactly one segment per block. -/
theorem alt_length_eq (text : JSString)
    (h : ∀ b ∈ splitBlocksRaw text, jsTrim b ≠ [])
    (hb : ¬ (splitBlocksRaw text).length < 2) :
    (parseByAlternatingTurns text).length = (splitBlocksRaw text).length := by
  unfold parseByAlternatingTurns
  rw [if_neg hb]
  have := congrArg List.length (altStep_foldl_pairs (splitBlocksRaw text) (true, []) h)
  simpa using this

/-- The alternation output's contents and prefixes, blockwise. -/
theorem alt_contents (text : JSString)
    (h : ∀ b ∈ splitBlocksRaw text, jsTrim b ≠ [])
    (hb : ¬ (splitBlocksRaw text).length < 2) :
    (parseByAlternatingTurns text).map (fun s => (s.content, s.opfx)) =
      (splitBlocksRaw text).map (fun b => (jsTrim b, ([] : JSString))) := by
  unfold parseByAlternatingTurns
  rw [if_neg hb]
  simpa using altStep_foldl_pairs (splitBlocksRaw text) (true, []) h

/-- The reconstruction fold as a flattened map. -/
theorem reconFold_aux (segs : List Segment) :
    ∀ acc, segs.foldl (fun a s => a ++ s.opfx ++ jsTrim s.content ++ ['\n', '\n']) acc =
      acc ++ (segs.map (fun s => s.opfx ++ jsTrim s.content ++ ['\n', '\n'])).flatten := by
  induction segs with
  | nil =>
    intro acc
    simp
  | cons s rest ih =>
    intro acc
    simp only [List.foldl_cons, List.map_cons, List.flatten_cons]
    rw [ih]
    simp [List.append_assoc]

/-- Reconstruction of a segment list whose `(content, prefix)` pairs come
from a block list: the result is the trimmed double-newline join of the
trimmed blocks. -/
theorem reconstructText_reconJoin (segs : List Segment) (blocks : List JSString)
    (hp : segs.map (fun s => (s.content, s.opfx)) =
      blocks.map (fun b => (jsTrim b, ([] : JSString)))) :
    reconstructText segs = jsTrim (reconJoin (blocks.map jsTrim)) := by
  unfold reconstructText
  rw [reconFold_aux segs [], List.nil_append]
  congr 1
  have h1 : segs.map (fun s => s.opfx ++ jsTrim s.content ++ ['\n', '\n']) =
      (segs.map (fun s => (s.content, s.opfx))).map
        (fun p => p.2 ++ jsTrim p.1 ++ ['\n', '\n']) := by
    rw [List.map_map]
    rfl
  rw [h1, hp, List.map_map]
  unfold reconJoin
  rw [List.map_map]
  have h2 : ((fun p : JSString × JSString => p.2 ++ jsTrim p.1 ++ ['\n', '\n']) ∘
      (fun b => (jsTrim b, ([] : JSString)))) =
      ((fun c => c ++ ['\n', '\n']) ∘ jsTrim) := by
    funext b
    simp [Function.comp, jsTrim_idem]
  rw [h2]

/-- In-range `getD` is `getElem`. -/
theorem getD_eq_getElem {α : Type} (l : List α) (i : ℕ) (h : i < l.length) (d : α) :
    l.getD i d = l[i] := by
  simp [List.getD_eq_getElem?_getD, List.getElem?_eq_getElem h]

/-- Two equal-length lists whose kinds both alternate user-first have the
same kind sequence. -/
theorem type_map_of_alternating (xs ys : List Segment)
    (hlen : xs.length = ys.length)
    (hx : ∀ i, i < xs.length →
      (xs.getD i initSeg).type = (if i % 2 = 0 then SegType.user else SegType.ai))
    (hy : ∀ i, i < ys.length →
      (ys.getD i initSeg).type = (if i % 2 = 0 then SegType.user else SegType.ai)) :
    xs.map Segment.type = ys.map Segment.type := by
  apply List.ext_getElem
  · simp [hlen]
  · intro i h1 h2
    simp only [List.getElem_map]
    have hxi : i < xs.length := by simpa using h1
    have hyi : i < ys.length := by simpa using h2
    have e1 := hx i hxi
    have e2 := hy i hyi
    rw [getD_eq_getElem xs i hxi] at e1
    rw [getD_eq_getElem ys i hyi] at e2
    rw [e1, e2]

/-- Parsing a trimmed double-newline join of trimmed, non-empty,
label-free blocks: the labels strategy is inconclusive and the
alternation strategy recovers exactly one segment per block. -/
theorem parseSegments_reconJoin (cs : List JSString)
    (hprops : ∀ c ∈ cs, jsTrim c = c ∧ c ≠ [] ∧
      ∀ l ∈ splitLines c, isBlankLine l = false)
    (hfree : ∀ c ∈ cs, ∀ l ∈ splitLines c, lineLabel l = none)
    (h2 : 2 ≤ cs.length) :
    parseSegments (jsTrim (reconJoin cs)) =
      parseByAlternatingTurns (jsTrim (reconJoin cs)) ∧
    (parseByAlternatingTurns (jsTrim (reconJoin cs))).length = cs.length := by
  have hBLK := groupBlocks_reconJoin cs hprops
  have hRne : jsTrim (reconJoin cs) ≠ [] := by
    intro h0
    have h1 : groupBlocks (splitLines (jsTrim (reconJoin cs))) = [] := by
      rw [h0]
      decide
    rw [hBLK.1] at h1
    have hlen0 : cs.length = 0 := by
      have := congrArg List.length h1
      simpa using this
    omega
  have hRfree : ∀ l ∈ splitLines (jsTrim (reconJoin cs)), lineLabel l = none := by
    intro l hl
    rcases hBLK.2 l hl with h0 | ⟨c, hc, hlc⟩
    · rw [h0]
      decide
    · exact hfree c hc l hlc
  have hpl2 := parseByLabels_none (jsTrim (reconJoin cs)) hRfree
    (by rw [jsTrim_idem]; exact hRne)
  have hRblocks : splitBlocksRaw (jsTrim (reconJoin cs)) = cs := by
    unfold splitBlocksRaw
    rw [jsTrim_idem, hBLK.1, List.map_map]
    have hid : cs.map (lineJoin ∘ splitLines) = cs.map id :=
      List.map_congr_left (fun c _ => lineJoin_splitLines c)
    rw [hid, List.map_id]
  have hRbne : ∀ b ∈ splitBlocksRaw (jsTrim (reconJoin cs)), jsTrim b ≠ [] := by
    rw [hRblocks]
    intro c hc
    rw [(hprops c hc).1]
    exact (hprops c hc).2.1
  have hRnl2 : ¬ (splitBlocksRaw (jsTrim (reconJoin cs))).length < 2 := by
    rw [hRblocks]
    omega
  have hlen2 := alt_length_eq (jsTrim (reconJoin cs)) hRbne hRnl2
  refine ⟨?_, by rw [hlen2, hRblocks]⟩
  apply parseSegments_eq_alternating
  · rw [hpl2]
    exact Or.inl (by simp)
  · rw [hlen2, hRblocks]
    omega

/-- Claim C7 as amended: for inputs handled by the structural blank-line
strategy whose lines match no label pattern — neither the raw lines nor
the edge-trimmed variants in which the block lines can reappear after
reconstruction — re-segmenting the reconstruction yields the same turn
count and the same kind sequence. -/
theorem C7_roundtrip (text : JSString)
    (hfree1 : ∀ l ∈ splitLines text, lineLabel l = none)
    (hfree2 : ∀ l ∈ splitLines (jsTrim text), lineLabelFree l = true)
    (hb : 2 ≤ (splitBlocksRaw text).length) :
    (parseSegments (reconstructText (parseSegments text))).length =
      (parseSegments text).length ∧
    (parseSegments (reconstructText (parseSegments text))).map Segment.type =
      (parseSegments text).map Segment.type := by
  have ht : jsTrim text ≠ [] := by
    intro h0
    have h1 : splitBlocksRaw text = [] := by
      unfold splitBlocksRaw
      rw [h0]
      decide
    rw [h1] at hb
    simp at hb
  have hblockprops : ∀ b ∈ splitBlocksRaw text,
      jsTrim b ≠ [] ∧
      ∀ l' ∈ splitLines (jsTrim b),
        (∃ l ∈ splitLines (jsTrim text),
          l' = l ∨ l' = jsTrimLeft l ∨ l' = jsTrimRight l ∨ l' = jsTrim l) ∧
        isBlankLine l' = false := by
    intro b hbmem
    unfold splitBlocksRaw at hbmem
    obtain ⟨run, hrun, hjoin⟩ := List.mem_map.mp hbmem
    obtain ⟨hrne, hrl⟩ := groupBlocks_inv _ run hrun
    have hprops : ∀ l ∈ run, isBlankLine l = false ∧ '\n' ∉ l := by
      intro l hl
      exact ⟨(hrl l hl).1, splitLines_no_nl _ l ((hrl l hl).2)⟩
    obtain ⟨h1, h2⟩ := jsTrim_lineJoin_lines run hrne hprops
    rw [hjoin] at h1 h2
    refine ⟨h1, fun l' hl' => ?_⟩
    obtain ⟨⟨l, hl, hv⟩, hnb⟩ := h2 l' hl'
    exact ⟨⟨l, (hrl l hl).2, hv⟩, hnb⟩
  have hblockfree : ∀ b ∈ splitBlocksRaw text, ∀ l' ∈ splitLines (jsTrim b),
      lineLabel l' = none := by
    intro b hbm l' hl'
    obtain ⟨⟨l, hl, hv⟩, _⟩ := (hblockprops b hbm).2 l' hl'
    have hf := hfree2 l hl
    unfold lineLabelFree at hf
    simp only [Bool.and_eq_true, Option.isNone_iff_eq_none] at hf
    rcases hv with h | h | h | h <;> rw [h]
    · exact hf.1.1.1
    · exact hf.1.1.2
    · exact hf.1.2
    · exact hf.2
  have hbne : ∀ b ∈ splitBlocksRaw text, jsTrim b ≠ [] :=
    fun b h => (hblockprops b h).1
  have hnl2 : ¬ (splitBlocksRaw text).length < 2 := by omega
  have hlen1 := alt_length_eq text hbne hnl2
  have hseg1 : parseSegments text = parseByAlternatingTurns text := by
    apply parseSegments_eq_alternating
    · rw [parseByLabels_none text hfree1 ht]
      exact Or.inl (by simp)
    · omega
  have hpairs : (parseSegments text).map (fun s => (s.content, s.opfx)) =
      (splitBlocksRaw text).map (fun b => (jsTrim b, ([] : JSString))) := by
    rw [hseg1]
    exact alt_contents text hbne hnl2
  have hrec : reconstructText (parseSegments text) =
      jsTrim (reconJoin ((splitBlocksRaw text).map jsTrim)) :=
    reconstructText_reconJoin (parseSegments text) (splitBlocksRaw text) hpairs
  have hcsprops : ∀ c ∈ (splitBlocksRaw text).map jsTrim, jsTrim c = c ∧ c ≠ [] ∧
      ∀ l ∈ splitLines c, isBlankLine l = false := by
    intro c hc
    obtain ⟨b, hbm, hbc⟩ := List.mem_map.mp hc
    subst hbc
    exact ⟨jsTrim_idem b, (hblockprops b hbm).1,
      fun l hl => ((hblockprops b hbm).2 l hl).2⟩
  have hcsfree : ∀ c ∈ (splitBlocksRaw text).map jsTrim,
      ∀ l ∈ splitLines c, lineLabel l = none := by
    intro c hc l hl
    obtain ⟨b, hbm, hbc⟩ := List.mem_map.mp hc
    subst hbc
    exact hblockfree b hbm l hl
  have hcslen : ((splitBlocksRaw text).map jsTrim).length = (splitBlocksRaw text).length := by
    simp
  have hR := parseSegments_reconJoin ((splitBlocksRaw text).map jsTrim)
    hcsprops hcsfree (by omega)
  rw [hrec, hR.1, hseg1]
  have hlenEq : (parseByAlternatingTurns
      (jsTrim (reconJoin ((splitBlocksRaw text).map jsTrim)))).length =
      (parseByAlternatingTurns text).length := by
    rw [hR.2, hcslen, hlen1]
  exact ⟨hlenEq, type_map_of_alternating _ _ hlenEq
    (parseByAlternatingTurns_inv _).2 (parseByAlternatingTurns_inv text).2⟩

/-- Witness for C7 (amended) at a concrete two-block label-free input. -/
theorem C7_roundtrip_witness :
    (∀ l ∈ splitLines c7w, lineLabel l = none) ∧
    (∀ l ∈ splitLines (jsTrim c7w), lineLabelFree l = true) ∧
    2 ≤ (splitBlocksRaw c7w).length ∧
    ((parseSegments (reconstructText (parseSegments c7w))).length =
       (parseSegments c7w).length ∧
     (parseSegments (reconstructText (parseSegments c7w))).map Segment.type =
       (parseSegments c7w).map Segment.type) :=
  ⟨by decide, by decide, by decide, C7_roundtrip c7w (by decide) (by decide) (by decide)⟩

end BubbleScript
